import Mathlib

/-!
Verification of libhfsuser (hfsfuse) against its specification.

The development shallowly embeds the functions of
src/lib/libhfsuser/hfsuser.c.  Strings are modelled as lists of Unicode
codepoints (`List Nat`); machine integers are `Nat`/`Int`.  Functions of
external libraries (utf8proc, libc pread) and of repository code that is
not part of the provided sources (libhfs catalog primitives, hfsuser.h
constants) are modelled as explicit parameters or, where the specification
fixes them, as definitions marked "Modelled from the spec".
-/

/-! ## HFS+ decomposition range (hfsuser.c, HFSINRANGE macro, lines 146-150) -/

/-- Direct translation of the HFSINRANGE macro: codepoint in U+0000..U+FFFF
and not in U+2000..U+2FFF nor U+F900..U+FAFF. -/
def HFSINRANGE (c : Nat) : Bool :=
  decide ((0 ≤ c ∧ c ≤ 0xFFFF) ∧
    ¬((0x2000 ≤ c ∧ c ≤ 0x2FFF) ∨ (0xF900 ≤ c ∧ c ≤ 0xFAFF)))

/-- Parameters supplied by the external utf8proc library: full canonical
decomposition of a codepoint (utf8proc_decompose_char) and the canonical
combining class (utf8proc_get_property(c)->combining_class).  These are
external library data tables, so the embedding abstracts over them. -/
structure UProc where
  decomp : Nat → List Nat
  cc : Nat → Nat

/-! ## sort_combining_characters (hfsuser.c lines 152-175)

The C function works in place on an int32 buffer with a size_t index.
`swapAdj buf i` models the exchange of buf[i] and buf[i+1].  In the swap
branch the C code does `i--`; when i is 0 the size_t index wraps around to
SIZE_MAX, the loop condition `i < len - 1` becomes false and the loop
exits: the model returns the buffer at that point.  `fuel` bounds the
number of iterations; every theorem below either holds for every fuel or
is evaluated at a concrete input where the loop exits on its own. -/

def swapAdj : List Nat → Nat → List Nat
  | [], _ => []
  | [x], _ => [x]
  | x :: y :: rest, 0 => y :: x :: rest
  | x :: rest, n + 1 => x :: swapAdj rest n

def sortLoop (cc : Nat → Nat) : Nat → List Nat → Nat → List Nat
  | 0, buf, _ => buf
  | fuel + 1, buf, i =>
    if i + 1 < buf.length then
      let rclassv := cc (buf.getD (i + 1) 0)
      if rclassv = 0 ∨ HFSINRANGE (buf.getD (i + 1) 0) = false then
        sortLoop cc fuel buf (i + 2)
      else if HFSINRANGE (buf.getD i 0) = true ∧ cc (buf.getD i 0) > rclassv then
        if i = 0 then swapAdj buf 0
        else sortLoop cc fuel (swapAdj buf i) (i - 1)
      else sortLoop cc fuel buf (i + 1)
    else buf

def sort_combining_characters (cc : Nat → Nat) (buf : List Nat) : List Nat :=
  if buf.length ≤ 1 then buf
  else
    sortLoop cc (2 * buf.length * buf.length + buf.length + 2)
      (if HFSINRANGE (buf.getD 0 0) = true ∧ HFSINRANGE (buf.getD 1 0) = true ∧
          cc (buf.getD 1 0) ≠ 0 ∧ cc (buf.getD 0 0) > cc (buf.getD 1 0) then
        swapAdj buf 0
      else buf) 1

/-! ## hfs_utf8proc_NFD (hfsuser.c lines 177-204)

Modelled at codepoint level: UTF-8 iteration (utf8proc_iterate) and the
final utf8proc_reencode are the identity on the codepoint sequence.  The
first pass computes the output length and fails (the C code returns NULL)
when some in-range codepoint has no positive decomposition length or when
the total length is 0; the second pass concatenates the decompositions of
in-range codepoints and passes every other codepoint through. -/

def nfdScanLen (u : UProc) : List Nat → Option Nat
  | [] => some 0
  | c :: rest =>
    if HFSINRANGE c then
      if 0 < (u.decomp c).length then
        (nfdScanLen u rest).map ((u.decomp c).length + ·)
      else none
    else (nfdScanLen u rest).map (1 + ·)

def buildBuf (u : UProc) (s : List Nat) : List Nat :=
  s.flatMap (fun c => if HFSINRANGE c then u.decomp c else [c])

def hfs_utf8proc_NFD (u : UProc) (s : List Nat) : Option (List Nat) :=
  match nfdScanLen u s with
  | none => none
  | some 0 => none
  | some (_ + 1) => some (sort_combining_characters u.cc (buildBuf u s))

/-! Basic lemmas about swapAdj and sortLoop. -/

theorem swapAdj_length (buf : List Nat) (i : Nat) :
    (swapAdj buf i).length = buf.length := by
  induction buf generalizing i with
  | nil => rfl
  | cons x rest ih =>
    cases rest with
    | nil => cases i <;> rfl
    | cons y rest2 =>
      cases i with
      | zero => rfl
      | succ n => simpa [swapAdj] using ih n

theorem swapAdj_getD_ne (buf : List Nat) (i j : Nat)
    (h1 : j ≠ i) (h2 : j ≠ i + 1) :
    (swapAdj buf i).getD j 0 = buf.getD j 0 := by
  induction buf generalizing i j with
  | nil => rfl
  | cons x rest ih =>
    cases rest with
    | nil => cases i <;> rfl
    | cons y rest2 =>
      cases i with
      | zero =>
        cases j with
        | zero => exact absurd rfl h1
        | succ j2 =>
          cases j2 with
          | zero => exact absurd rfl h2
          | succ j3 => rfl
      | succ n =>
        cases j with
        | zero => rfl
        | succ j2 =>
          have e1 : j2 ≠ n := fun h => h1 (by omega)
          have e2 : j2 ≠ n + 1 := fun h => h2 (by omega)
          simpa [swapAdj] using ih n j2 e1 e2

theorem swapAdj_getD_lo (buf : List Nat) (i : Nat) (h : i + 1 < buf.length) :
    (swapAdj buf i).getD i 0 = buf.getD (i + 1) 0 := by
  induction buf generalizing i with
  | nil => simp at h
  | cons x rest ih =>
    cases rest with
    | nil => simp at h
    | cons y rest2 =>
      cases i with
      | zero => rfl
      | succ n =>
        have hn : n + 1 < (y :: rest2).length := by
          simpa using Nat.lt_of_succ_lt_succ h
        simpa [swapAdj] using ih n hn

theorem swapAdj_getD_hi (buf : List Nat) (i : Nat) (h : i + 1 < buf.length) :
    (swapAdj buf i).getD (i + 1) 0 = buf.getD i 0 := by
  induction buf generalizing i with
  | nil => simp at h
  | cons x rest ih =>
    cases rest with
    | nil => simp at h
    | cons y rest2 =>
      cases i with
      | zero => rfl
      | succ n =>
        have hn : n + 1 < (y :: rest2).length := by
          simpa using Nat.lt_of_succ_lt_succ h
        simpa [swapAdj] using ih n hn

theorem sortLoop_length (cc : Nat → Nat) (fuel : Nat) (buf : List Nat) (i : Nat) :
    (sortLoop cc fuel buf i).length = buf.length := by
  induction fuel generalizing buf i with
  | zero => rfl
  | succ fuel ih =>
    unfold sortLoop
    by_cases hlt : i + 1 < buf.length
    · rw [if_pos hlt]
      by_cases h1 : cc (buf.getD (i + 1) 0) = 0 ∨ HFSINRANGE (buf.getD (i + 1) 0) = false
      · rw [if_pos h1]; exact ih buf (i + 2)
      · rw [if_neg h1]
        by_cases h2 : HFSINRANGE (buf.getD i 0) = true ∧
            cc (buf.getD i 0) > cc (buf.getD (i + 1) 0)
        · rw [if_pos h2]
          by_cases h3 : i = 0
          · rw [if_pos h3]; simpa using swapAdj_length buf 0
          · rw [if_neg h3, ih (swapAdj buf i) (i - 1), swapAdj_length]
        · rw [if_neg h2]; exact ih buf (i + 1)
    · rw [if_neg hlt]

theorem sort_combining_characters_length (cc : Nat → Nat) (buf : List Nat) :
    (sort_combining_characters cc buf).length = buf.length := by
  unfold sort_combining_characters
  by_cases h : buf.length ≤ 1
  · rw [if_pos h]
  · rw [if_neg h]
    by_cases hsw : HFSINRANGE (buf.getD 0 0) = true ∧ HFSINRANGE (buf.getD 1 0) = true ∧
        cc (buf.getD 1 0) ≠ 0 ∧ cc (buf.getD 0 0) > cc (buf.getD 1 0)
    · rw [if_pos hsw, sortLoop_length, swapAdj_length]
    · rw [if_neg hsw, sortLoop_length]

/-- Every swap performed by the sorting loop exchanges two adjacent
codepoints that both satisfy HFSINRANGE, so a codepoint outside the range
keeps its position. -/
theorem sortLoop_getD_out_of_range (cc : Nat → Nat) (fuel : Nat)
    (buf : List Nat) (i j : Nat)
    (hj : HFSINRANGE (buf.getD j 0) = false) :
    (sortLoop cc fuel buf i).getD j 0 = buf.getD j 0 := by
  induction fuel generalizing buf i with
  | zero => rfl
  | succ fuel ih =>
    unfold sortLoop
    by_cases hlt : i + 1 < buf.length
    · rw [if_pos hlt]
      by_cases h1 : cc (buf.getD (i + 1) 0) = 0 ∨ HFSINRANGE (buf.getD (i + 1) 0) = false
      · rw [if_pos h1]; exact ih buf (i + 2) hj
      · rw [if_neg h1]
        by_cases h2 : HFSINRANGE (buf.getD i 0) = true ∧
            cc (buf.getD i 0) > cc (buf.getD (i + 1) 0)
        · rw [if_pos h2]
          push_neg at h1
          have hi1 : HFSINRANGE (buf.getD (i + 1) 0) = true := by
            cases hr : HFSINRANGE (buf.getD (i + 1) 0)
            · exact absurd hr h1.2
            · rfl
          have hji : j ≠ i := by
            intro h; rw [h] at hj; rw [h2.1] at hj; exact Bool.noConfusion hj
          have hji1 : j ≠ i + 1 := by
            intro h; rw [h] at hj; rw [hi1] at hj; exact Bool.noConfusion hj
          by_cases h3 : i = 0
          · rw [if_pos h3]; subst h3; exact swapAdj_getD_ne buf 0 j hji hji1
          · rw [if_neg h3]
            have hpres := swapAdj_getD_ne buf i j hji hji1
            rw [ih (swapAdj buf i) (i - 1) (by rw [hpres]; exact hj), hpres]
        · rw [if_neg h2]; exact ih buf (i + 1) hj
    · rw [if_neg hlt]

theorem sort_combining_characters_getD_out_of_range (cc : Nat → Nat)
    (buf : List Nat) (j : Nat)
    (hj : HFSINRANGE (buf.getD j 0) = false) :
    (sort_combining_characters cc buf).getD j 0 = buf.getD j 0 := by
  unfold sort_combining_characters
  by_cases h : buf.length ≤ 1
  · rw [if_pos h]
  · rw [if_neg h]
    by_cases hsw : HFSINRANGE (buf.getD 0 0) = true ∧ HFSINRANGE (buf.getD 1 0) = true ∧
        cc (buf.getD 1 0) ≠ 0 ∧ cc (buf.getD 0 0) > cc (buf.getD 1 0)
    · rw [if_pos hsw]
      have hj0 : j ≠ 0 := by
        intro he; rw [he] at hj; rw [hsw.1] at hj; exact Bool.noConfusion hj
      have hj1 : j ≠ 1 := by
        intro he; rw [he] at hj; rw [hsw.2.1] at hj; exact Bool.noConfusion hj
      have hpres := swapAdj_getD_ne buf 0 j hj0 hj1
      rw [sortLoop_getD_out_of_range cc _ _ 1 j (by rw [hpres]; exact hj), hpres]
    · rw [if_neg hsw]
      exact sortLoop_getD_out_of_range cc _ buf 1 j hj

/-- C1.  When hfs_utf8proc_NFD succeeds, its output is the
combining-class sort of the buffer obtained by fully decomposing exactly
the codepoints inside the HFS+ range (all others contribute themselves,
unchanged); the sort preserves the length, and every codepoint outside the
range is left at its position by the reordering pass. -/
theorem claim_C1_nfd_decomposition_range (u : UProc) (s : List Nat)
    (out : List Nat) (hok : hfs_utf8proc_NFD u s = some out) :
    out = sort_combining_characters u.cc (buildBuf u s) ∧
    buildBuf u s = s.flatMap (fun c => if HFSINRANGE c then u.decomp c else [c]) ∧
    out.length = (buildBuf u s).length ∧
    (∀ j, HFSINRANGE ((buildBuf u s).getD j 0) = false →
      out.getD j 0 = (buildBuf u s).getD j 0) := by
  have hout : out = sort_combining_characters u.cc (buildBuf u s) := by
    unfold hfs_utf8proc_NFD at hok
    cases hscan : nfdScanLen u s with
    | none => rw [hscan] at hok; exact absurd hok (by simp)
    | some n =>
      rw [hscan] at hok
      cases n with
      | zero => exact absurd hok (by simp)
      | succ m => simpa using hok.symm
  refine ⟨hout, rfl, ?_, ?_⟩
  · rw [hout]; exact sort_combining_characters_length u.cc (buildBuf u s)
  · intro j hj
    rw [hout]
    exact sort_combining_characters_getD_out_of_range u.cc (buildBuf u s) j hj

/-- Witness for C1: the identity decomposition with combining class 0 on
the two-codepoint string U+0041 U+1F600 (the second codepoint is outside
the HFS+ range). -/
theorem claim_C1_nfd_decomposition_range_witness :
    hfs_utf8proc_NFD ⟨fun c => [c], fun _ => 0⟩ [0x41, 0x1F600] = some [0x41, 0x1F600] ∧
    ([0x41, 0x1F600] : List Nat) =
      sort_combining_characters (fun _ => 0) (buildBuf ⟨fun c => [c], fun _ => 0⟩ [0x41, 0x1F600]) := by
  have h := claim_C1_nfd_decomposition_range ⟨fun c => [c], fun _ => 0⟩
    [0x41, 0x1F600] [0x41, 0x1F600] (by decide)
  exact ⟨by decide, h.1⟩

/-! ## Non-idempotence of the HFS+ NFD pass (claim C9)

Concrete combining-class table for four real combining marks, with the
canonical combining classes of the Unicode character database (the data
utf8proc supplies): U+0316 combining grave accent below (ccc 220),
U+0301 combining acute accent (ccc 230), U+0334 combining tilde overlay
(ccc 1), U+0323 combining dot below (ccc 220).  None of them has a
canonical decomposition, so the decomposition function maps each codepoint
to itself. -/

def ccMarks : Nat → Nat := fun c =>
  if c = 0x334 then 1
  else if c = 0x301 then 230
  else if c = 0x316 then 220
  else if c = 0x323 then 220
  else 0

def uMarks : UProc := ⟨fun c => [c], ccMarks⟩

/-- C9.  The claim fails on the code: normalizing the string
U+0316 U+0301 U+0334 U+0323 once yields U+0334 U+0316 U+0301 U+0323 — the
sorting loop swaps at index 1 and then at index 0, where the size_t index
decrement wraps around and the loop exits before the pair at positions
2..3 (classes 230, 220) is ordered — and normalizing that output again
yields the different string U+0334 U+0316 U+0323 U+0301, so
hfs_nfd(hfs_nfd(s)) differs from hfs_nfd(s). -/
theorem claim_C9_nfd_not_idempotent :
    hfs_utf8proc_NFD uMarks [0x316, 0x301, 0x334, 0x323] =
      some [0x334, 0x316, 0x301, 0x323] ∧
    hfs_utf8proc_NFD uMarks [0x334, 0x316, 0x301, 0x323] =
      some [0x334, 0x316, 0x323, 0x301] ∧
    ([0x334, 0x316, 0x323, 0x301] : List Nat) ≠ [0x334, 0x316, 0x301, 0x323] := by
  refine ⟨by decide, by decide, by decide⟩

/-! ## hfs_read (hfsuser.c lines 468-493, the non-ublio variant)

The underlying device is modelled by the byte content at each device
offset and by the return value that the libc pread call produces for a
given (length, offset) request; per POSIX a positive return r means the
first r requested bytes were stored.  `hfs_read` returns the list of bytes
written into the caller's buffer (in order, starting at the buffer's
beginning), or none when the C function returns -errno.  The `min` macro
of hfsuser.h is not part of the provided sources; modelled from the spec
as the signed integer minimum. -/

structure HfsVolume where
  offset : Nat
  deriving DecidableEq

structure Device where
  byte : Nat → Nat
  preadRet : Nat → Nat → Int
  blksize : Nat

def devBytes (dev : Device) (off len : Nat) : List Nat :=
  (List.range len).map (fun k => dev.byte (off + k))

/-- The retry loop of hfs_read: while bytes remain and pread returns a
positive count, advance by min(length, ret).  The fuel argument equals the
requested length at the top-level call; each iteration consumes at least
one byte, so the fuel never runs out before the loop exits on its own.
Returns (last pread return value as the C variable ret, bytes written). -/
def readLoopF (dev : Device) : Nat → Nat → Nat → Int → Int × List Nat
  | _, 0, _, ret0 => (ret0, [])
  | 0, _ + 1, _, ret0 => (ret0, [])
  | fuel + 1, len + 1, off, _ =>
    let r := dev.preadRet (len + 1) off
    if 0 < r then
      let rp := min (len + 1) r.toNat
      let rest := readLoopF dev fuel (len + 1 - rp) (off + rp) (rp : Int)
      (rest.1, devBytes dev off rp ++ rest.2)
    else (r, [])

def hfsReadTail (dev : Device) (rem off2 : Nat) (loopOut : List Nat) :
    Option (List Nat) :=
  if min (rem : Int) (dev.preadRet dev.blksize off2) < 0 then none
  else if 0 < min (rem : Int) (dev.preadRet dev.blksize off2) then
    some (loopOut ++ devBytes dev off2
      (min (rem : Int) (dev.preadRet dev.blksize off2)).toNat)
  else some loopOut

def hfs_read (vol : HfsVolume) (dev : Device) (length offset0 : Nat) :
    Option (List Nat) :=
  if (readLoopF dev (length - length % dev.blksize) (length - length % dev.blksize)
      (offset0 + vol.offset) 0).1 < 0 then none
  else if length % dev.blksize = 0 then
    some (readLoopF dev (length - length % dev.blksize) (length - length % dev.blksize)
      (offset0 + vol.offset) 0).2
  else
    hfsReadTail dev (length % dev.blksize)
      ((offset0 + vol.offset) +
        (readLoopF dev (length - length % dev.blksize) (length - length % dev.blksize)
          (offset0 + vol.offset) 0).2.length)
      (readLoopF dev (length - length % dev.blksize) (length - length % dev.blksize)
        (offset0 + vol.offset) 0).2

theorem devBytes_length (dev : Device) (off len : Nat) :
    (devBytes dev off len).length = len := by
  simp [devBytes]

theorem devBytes_append (dev : Device) (off a b : Nat) :
    devBytes dev off a ++ devBytes dev (off + a) b = devBytes dev off (a + b) := by
  unfold devBytes
  rw [List.range_add, List.map_append, List.map_map]
  congr 1
  apply List.map_congr_left
  intro k _
  simp [Function.comp, Nat.add_assoc, Nat.add_comm a k]

theorem readLoopF_length_le (dev : Device) (fuel len off : Nat) (ret0 : Int) :
    (readLoopF dev fuel len off ret0).2.length ≤ len := by
  induction fuel generalizing len off ret0 with
  | zero => cases len <;> simp [readLoopF]
  | succ fuel ih =>
    cases len with
    | zero => simp [readLoopF]
    | succ l =>
      unfold readLoopF
      by_cases hr : 0 < dev.preadRet (l + 1) off
      · rw [if_pos hr]
        simp only [List.length_append, devBytes_length]
        have h1 := ih (l + 1 - min (l + 1) (dev.preadRet (l + 1) off).toNat)
          (off + min (l + 1) (dev.preadRet (l + 1) off).toNat)
          ((min (l + 1) (dev.preadRet (l + 1) off).toNat : Nat) : Int)
        have h2 : min (l + 1) (dev.preadRet (l + 1) off).toNat ≤ l + 1 :=
          Nat.min_le_left _ _
        omega
      · rw [if_neg hr]; simp


theorem readLoopF_pos_delivers (dev : Device)
    (Hle : ∀ l o, dev.preadRet l o ≤ (l : Int))
    (Hpos : ∀ l o, 0 < l → 0 < dev.preadRet l o)
    (fuel len off : Nat) (ret0 : Int) (hfuel : len ≤ fuel) (hret0 : 0 ≤ ret0) :
    (readLoopF dev fuel len off ret0).2.length = len ∧
    ¬(readLoopF dev fuel len off ret0).1 < 0 := by
  induction fuel generalizing len off ret0 with
  | zero =>
    have hz : len = 0 := Nat.le_zero.mp hfuel
    subst hz
    exact ⟨rfl, by simp [readLoopF]; omega⟩
  | succ fuel ih =>
    cases len with
    | zero => exact ⟨rfl, by simp [readLoopF]; omega⟩
    | succ l =>
      unfold readLoopF
      have hr : 0 < dev.preadRet (l + 1) off := Hpos (l + 1) off (Nat.succ_pos l)
      rw [if_pos hr]
      have hrle : (dev.preadRet (l + 1) off).toNat ≤ l + 1 := by
        have := Hle (l + 1) off; omega
      have hrpos : 1 ≤ (dev.preadRet (l + 1) off).toNat := by omega
      have hmin : min (l + 1) (dev.preadRet (l + 1) off).toNat =
          (dev.preadRet (l + 1) off).toNat := Nat.min_eq_right hrle
      have hrec := ih (l + 1 - min (l + 1) (dev.preadRet (l + 1) off).toNat)
        (off + min (l + 1) (dev.preadRet (l + 1) off).toNat)
        ((min (l + 1) (dev.preadRet (l + 1) off).toNat : Nat) : Int)
        (by omega) (by omega)
      refine ⟨?_, hrec.2⟩
      simp only [List.length_append, devBytes_length, hrec.1]
      omega

theorem readLoopF_full_reads (dev : Device)
    (Hfull : ∀ l o, dev.preadRet l o = (l : Int))
    (fuel len off : Nat) (ret0 : Int) (hfuel : len ≤ fuel) (hret0 : 0 ≤ ret0) :
    (readLoopF dev fuel len off ret0).2 = devBytes dev off len ∧
    ¬(readLoopF dev fuel len off ret0).1 < 0 := by
  cases len with
  | zero =>
    cases fuel <;>
      exact ⟨by simp [readLoopF, devBytes], by simp [readLoopF]; omega⟩
  | succ l =>
    cases fuel with
    | zero => omega
    | succ fuel =>
      unfold readLoopF
      have hr : 0 < dev.preadRet (l + 1) off := by rw [Hfull]; omega
      rw [if_pos hr]
      have htn : (dev.preadRet (l + 1) off).toNat = l + 1 := by
        rw [Hfull]; omega
      have hmin : min (l + 1) (dev.preadRet (l + 1) off).toNat = l + 1 := by
        rw [htn]; exact Nat.min_self _
      rw [hmin]
      simp only [Nat.sub_self]
      have hrest : readLoopF dev fuel 0 (off + (l + 1)) ((l + 1 : Nat) : Int) =
          (((l + 1 : Nat) : Int), []) := by
        cases fuel <;> rfl
      rw [hrest]
      refine ⟨by simp, by simp; omega⟩


/-- C5 counterexample.  The claim says a zero or negative pread return
surfaces an error.  On a device whose pread always returns 0 (for
instance, reading at end of file) hfs_read with length 2 and block size 2
returns success having delivered no bytes: the zero return merely ends the
retry loop, is not reported as an error, and the requested bytes are never
delivered. -/
theorem claim_C5_counterexample_zero_read :
    hfs_read ⟨0⟩ ⟨fun _ => 0, fun _ _ => 0, 2⟩ 2 0 = some [] ∧
    ([] : List Nat).length < 2 := by
  exact ⟨rfl, by decide⟩

theorem hfs_read_length_le (vol : HfsVolume) (dev : Device)
    (length offset0 : Nat) (out : List Nat)
    (hout : hfs_read vol dev length offset0 = some out) :
    out.length ≤ length := by
  have hmod : length % dev.blksize ≤ length := Nat.mod_le _ _
  unfold hfs_read at hout
  have hlen := readLoopF_length_le dev (length - length % dev.blksize)
    (length - length % dev.blksize) (offset0 + vol.offset) 0
  generalize hrl : readLoopF dev (length - length % dev.blksize)
    (length - length % dev.blksize) (offset0 + vol.offset) 0 = rl at hout hlen
  by_cases h1 : rl.1 < 0
  · rw [if_pos h1] at hout; exact absurd hout (by simp)
  · rw [if_neg h1] at hout
    by_cases h2 : length % dev.blksize = 0
    · rw [if_pos h2] at hout
      cases hout
      omega
    · rw [if_neg h2] at hout
      unfold hfsReadTail at hout
      have hr2le : min ((length % dev.blksize : Nat) : Int)
          (dev.preadRet dev.blksize (offset0 + vol.offset + rl.2.length)) ≤
          ((length % dev.blksize : Nat) : Int) := min_le_left _ _
      by_cases h3 : min ((length % dev.blksize : Nat) : Int)
          (dev.preadRet dev.blksize (offset0 + vol.offset + rl.2.length)) < 0
      · rw [if_pos h3] at hout; exact absurd hout (by simp)
      · rw [if_neg h3] at hout
        by_cases h4 : (0 : Int) < min ((length % dev.blksize : Nat) : Int)
            (dev.preadRet dev.blksize (offset0 + vol.offset + rl.2.length))
        · rw [if_pos h4] at hout
          cases hout
          simp only [List.length_append, devBytes_length]
          omega
        · rw [if_neg h4] at hout
          cases hout
          omega

theorem hfs_read_pos_delivers (vol : HfsVolume) (dev : Device)
    (length offset0 : Nat)
    (Hle : ∀ l o, dev.preadRet l o ≤ (l : Int))
    (Hpos : ∀ l o, 0 < l → 0 < dev.preadRet l o)
    (Htail : ∀ o, ((length % dev.blksize : Nat) : Int) ≤ dev.preadRet dev.blksize o) :
    ∃ out, hfs_read vol dev length offset0 = some out ∧ out.length = length := by
  have hmod : length % dev.blksize ≤ length := Nat.mod_le _ _
  have hloop := readLoopF_pos_delivers dev Hle Hpos
    (length - length % dev.blksize) (length - length % dev.blksize)
    (offset0 + vol.offset) 0 (Nat.le_refl _) (by omega)
  unfold hfs_read
  generalize hrl : readLoopF dev (length - length % dev.blksize)
    (length - length % dev.blksize) (offset0 + vol.offset) 0 = rl
  rw [hrl] at hloop
  rw [if_neg hloop.2]
  by_cases h2 : length % dev.blksize = 0
  · rw [if_pos h2]
    exact ⟨_, rfl, by omega⟩
  · rw [if_neg h2]
    unfold hfsReadTail
    have htail := Htail (offset0 + vol.offset + rl.2.length)
    have hminv : min ((length % dev.blksize : Nat) : Int)
        (dev.preadRet dev.blksize (offset0 + vol.offset + rl.2.length)) =
        ((length % dev.blksize : Nat) : Int) := min_eq_left htail
    rw [hminv]
    rw [if_neg (by omega), if_pos (by omega)]
    refine ⟨_, rfl, ?_⟩
    simp only [List.length_append, devBytes_length]
    omega

/-- C5 amended.  hfs_read never writes more than the requested length
into the caller's buffer (the unaligned tail, read through the internal
block-sized buffer, contributes at most length mod blksize bytes), and
when every pread return is positive — short reads of the aligned part are
retried — and the single, unretried tail read returns at least the
remainder, exactly the requested length is delivered.  A zero pread
return is not an error: it ends the retry loop and the call returns
success with a short buffer (see the counterexample). -/
theorem claim_C5_read_bounds_amended (vol : HfsVolume) (dev : Device)
    (length offset0 : Nat) :
    (∀ out, hfs_read vol dev length offset0 = some out → out.length ≤ length) ∧
    ((∀ l o, dev.preadRet l o ≤ (l : Int)) →
     (∀ l o, 0 < l → 0 < dev.preadRet l o) →
     (∀ o, ((length % dev.blksize : Nat) : Int) ≤ dev.preadRet dev.blksize o) →
     ∃ out, hfs_read vol dev length offset0 = some out ∧ out.length = length) :=
  ⟨fun out hout => hfs_read_length_le vol dev length offset0 out hout,
   fun Hle Hpos Htail => hfs_read_pos_delivers vol dev length offset0 Hle Hpos Htail⟩

/-- Witness for C5: a full-read device with block size 2 and a request of
3 bytes delivers exactly 3 bytes. -/
theorem claim_C5_read_bounds_amended_witness :
    ∃ out, hfs_read ⟨0⟩ ⟨fun k => k, fun l _ => (l : Int), 2⟩ 3 0 = some out ∧
      out.length = 3 := by
  exact (claim_C5_read_bounds_amended ⟨0⟩ ⟨fun k => k, fun l _ => (l : Int), 2⟩ 3 0).2
    (fun l o => Int.le_refl _)
    (fun l o hl => by show (0 : Int) < (l : Int); omega)
    (fun o => by show ((3 % 2 : Nat) : Int) ≤ ((2 : Nat) : Int); decide)

/-- C6 counterexample.  The claim says the bytes delivered are exactly the
bytes at [offset, offset+length) on the device, with no further offset
translation inside the read operation.  With a volume offset of 5 and the
identity device content, hfs_read for 2 bytes at offset 0 delivers the
device bytes 5 and 6, not bytes 0 and 1: hfs_read itself adds vol->offset
to the offset it receives. -/
theorem claim_C6_counterexample_volume_offset :
    hfs_read ⟨5⟩ ⟨fun k => k, fun l _ => (l : Int), 4⟩ 2 0 = some [5, 6] ∧
    hfs_read ⟨5⟩ ⟨fun k => k, fun l _ => (l : Int), 4⟩ 2 0 ≠
      some (devBytes ⟨fun k => k, fun l _ => (l : Int), 4⟩ 0 2) := by
  refine ⟨rfl, by decide⟩

/-- C6 amended.  hfs_read performs exactly one offset translation: it adds
the volume offset vol->offset to the offset passed by the caller.  On a
device whose pread always returns the full requested count, the bytes
delivered for a call with length L and offset o are exactly the device
bytes at [o + vol.offset, o + vol.offset + L). -/
theorem claim_C6_device_offset_amended (vol : HfsVolume) (dev : Device)
    (length offset0 : Nat) (hblk : 0 < dev.blksize)
    (Hfull : ∀ l o, dev.preadRet l o = (l : Int)) :
    hfs_read vol dev length offset0 =
      some (devBytes dev (offset0 + vol.offset) length) := by
  have hmod : length % dev.blksize ≤ length := Nat.mod_le _ _
  have hloop := readLoopF_full_reads dev Hfull
    (length - length % dev.blksize) (length - length % dev.blksize)
    (offset0 + vol.offset) 0 (Nat.le_refl _) (by omega)
  unfold hfs_read
  generalize hrl : readLoopF dev (length - length % dev.blksize)
    (length - length % dev.blksize) (offset0 + vol.offset) 0 = rl
  rw [hrl] at hloop
  rw [if_neg hloop.2]
  have hlen2 : rl.2.length = length - length % dev.blksize := by
    rw [hloop.1, devBytes_length]
  by_cases h2 : length % dev.blksize = 0
  · rw [if_pos h2, hloop.1]
    have : length - length % dev.blksize = length := by omega
    rw [this]
  · rw [if_neg h2]
    unfold hfsReadTail
    have hreml : length % dev.blksize < dev.blksize := Nat.mod_lt _ hblk
    have hminv : min ((length % dev.blksize : Nat) : Int)
        (dev.preadRet dev.blksize (offset0 + vol.offset + rl.2.length)) =
        ((length % dev.blksize : Nat) : Int) := by
      rw [Hfull]; omega
    rw [hminv]
    rw [if_neg (by omega), if_pos (by omega)]
    rw [hlen2, hloop.1]
    have htn : (((length % dev.blksize : Nat) : Int)).toNat = length % dev.blksize := by
      omega
    rw [htn, devBytes_append]
    have : length - length % dev.blksize + length % dev.blksize = length := by omega
    rw [this]

/-- Witness for C6: volume offset 7, full-read identity device, 5 bytes
requested at offset 3 — the delivered bytes are those at device offsets
10..14. -/
theorem claim_C6_device_offset_amended_witness :
    hfs_read ⟨7⟩ ⟨fun k => k, fun l _ => (l : Int), 4⟩ 5 3 =
      some (devBytes ⟨fun k => k, fun l _ => (l : Int), 4⟩ (3 + 7) 5) := by
  exact claim_C6_device_offset_amended ⟨7⟩ ⟨fun k => k, fun l _ => (l : Int), 4⟩ 5 3
    (by decide) (fun l o => rfl)

/-! ## FinderInfo serialization (hfsuser.c lines 330-370)

The record structures mirror the libhfs catalog record types used by
hfs_serialize_finderinfo and hfs_lookup.  libhfs itself is not among the
provided sources; the field layout is modelled from the spec (sections 3
and 6).  Modelled from the spec: all FinderInfo fields of a file record
are 16-bit except file_type, file_creator and put_away_folder_cnid
(32-bit) — the spec fixes UserInfo+FinderInfo at 32 bytes total, which
forces the four reserved words of the file FinderInfo to be 16-bit (its
section 6 line saying u32x4 is inconsistent with that total). -/

structure HfsPoint where
  v : Nat
  h : Nat
  deriving DecidableEq

structure HfsRect where
  t : Nat
  l : Nat
  b : Nat
  r : Nat
  deriving DecidableEq

structure FileUserInfo where
  file_type : Nat
  file_creator : Nat
  finder_flags : Nat
  location : HfsPoint
  reserved : Nat
  deriving DecidableEq

structure FileFinderInfo where
  reserved_0 : Nat
  reserved_1 : Nat
  reserved_2 : Nat
  reserved_3 : Nat
  extended_finder_flags : Nat
  reserved2 : Nat
  put_away_folder_cnid : Nat
  deriving DecidableEq

structure FolderUserInfo where
  window_bounds : HfsRect
  finder_flags : Nat
  location : HfsPoint
  reserved : Nat
  deriving DecidableEq

structure FolderFinderInfo where
  scroll_position : HfsPoint
  reserved : Nat
  extended_finder_flags : Nat
  reserved2 : Nat
  put_away_folder_cnid : Nat
  deriving DecidableEq

/-- File catalog record; only the fields hfsuser.c reads are modelled.
inode_num stands for bsd.special.inode_num. -/
structure FileRecord where
  cnid : Nat
  user_info : FileUserInfo
  finder_info : FileFinderInfo
  inode_num : Nat
  deriving DecidableEq

structure FolderRecord where
  cnid : Nat
  user_info : FolderUserInfo
  finder_info : FolderFinderInfo
  deriving DecidableEq

/-- hfs_catalog_keyed_record_t restricted to the two record types the code
distinguishes (HFS_REC_FILE / HFS_REC_FLDR). -/
inductive KeyedRecord where
  | file : FileRecord → KeyedRecord
  | folder : FolderRecord → KeyedRecord
  deriving DecidableEq

/-- Little-endian in-memory bytes of a w-byte integer (the host of the C
code is little-endian; swapcopy reverses the in-memory bytes). -/
def leBytes : Nat → Nat → List Nat
  | 0, _ => []
  | w + 1, v => v % 256 :: leBytes w (v / 256)

/-- swapcopy (hfsuser.c lines 330-334) copies size bytes in reverse
order. -/
def swapcopy (src : List Nat) : List Nat := src.reverse

/-- The SWAPCOPY macro applied to a w-byte field with value v. -/
def SWAPCOPY (w v : Nat) : List Nat := swapcopy (leBytes w v)

/-- Big-endian bytes of a w-byte integer, most significant first: the
specification's serialization order. -/
def beBytes (w v : Nat) : List Nat :=
  (List.range w).map (fun i => v / 256 ^ (w - 1 - i) % 256)

def hfs_serialize_finderinfo : KeyedRecord → List Nat
  | .file rec =>
    SWAPCOPY 4 rec.user_info.file_type ++
    SWAPCOPY 4 rec.user_info.file_creator ++
    SWAPCOPY 2 rec.user_info.finder_flags ++
    SWAPCOPY 2 rec.user_info.location.v ++
    SWAPCOPY 2 rec.user_info.location.h ++
    SWAPCOPY 2 rec.user_info.reserved ++
    SWAPCOPY 2 rec.finder_info.reserved_0 ++
    SWAPCOPY 2 rec.finder_info.reserved_1 ++
    SWAPCOPY 2 rec.finder_info.reserved_2 ++
    SWAPCOPY 2 rec.finder_info.reserved_3 ++
    SWAPCOPY 2 rec.finder_info.extended_finder_flags ++
    SWAPCOPY 2 rec.finder_info.reserved2 ++
    SWAPCOPY 4 rec.finder_info.put_away_folder_cnid
  | .folder rec =>
    SWAPCOPY 2 rec.user_info.window_bounds.t ++
    SWAPCOPY 2 rec.user_info.window_bounds.l ++
    SWAPCOPY 2 rec.user_info.window_bounds.b ++
    SWAPCOPY 2 rec.user_info.window_bounds.r ++
    SWAPCOPY 2 rec.user_info.finder_flags ++
    SWAPCOPY 2 rec.user_info.location.v ++
    SWAPCOPY 2 rec.user_info.location.h ++
    SWAPCOPY 2 rec.user_info.reserved ++
    SWAPCOPY 2 rec.finder_info.scroll_position.v ++
    SWAPCOPY 2 rec.finder_info.scroll_position.h ++
    SWAPCOPY 4 rec.finder_info.reserved ++
    SWAPCOPY 2 rec.finder_info.extended_finder_flags ++
    SWAPCOPY 2 rec.finder_info.reserved2 ++
    SWAPCOPY 4 rec.finder_info.put_away_folder_cnid

theorem leBytes_length (w v : Nat) : (leBytes w v).length = w := by
  induction w generalizing v with
  | zero => rfl
  | succ w ih => simp [leBytes, ih]

/-- Reversing the little-endian in-memory bytes yields the big-endian
serialization: the correctness of the swap-and-copy idiom. -/
theorem swapcopy_leBytes_eq_beBytes (w v : Nat) :
    SWAPCOPY w v = beBytes w v := by
  unfold SWAPCOPY swapcopy
  induction w generalizing v with
  | zero => rfl
  | succ w ih =>
    show (v % 256 :: leBytes w (v / 256)).reverse = _
    rw [List.reverse_cons, ih (v / 256)]
    unfold beBytes
    rw [List.range_succ, List.map_append]
    congr 1
    · apply List.map_congr_left
      intro i hi
      rw [List.mem_range] at hi
      have h1 : w + 1 - 1 - i = (w - 1 - i) + 1 := by omega
      rw [h1, pow_succ, Nat.div_div_eq_div_mul]
      ring_nf
    · simp

/-- C8.  hfs_serialize_finderinfo writes exactly 32 bytes for every
record, and the bytes are the big-endian serializations of the fields in
the declared order: for a folder window_bounds.t/l/b/r, finder_flags,
location.v, location.h, reserved (u16), scroll_position.v,
scroll_position.h, reserved (u32), extended_finder_flags, reserved2,
put_away_folder_cnid; for a file file_type, file_creator, finder_flags,
location.v, location.h, reserved (u16), the four 16-bit reserved words,
extended_finder_flags, reserved2, put_away_folder_cnid. -/
theorem claim_C8_finderinfo_layout :
    (∀ rec : KeyedRecord, (hfs_serialize_finderinfo rec).length = 32) ∧
    (∀ fo : FolderRecord,
      hfs_serialize_finderinfo (.folder fo) =
        beBytes 2 fo.user_info.window_bounds.t ++
        beBytes 2 fo.user_info.window_bounds.l ++
        beBytes 2 fo.user_info.window_bounds.b ++
        beBytes 2 fo.user_info.window_bounds.r ++
        beBytes 2 fo.user_info.finder_flags ++
        beBytes 2 fo.user_info.location.v ++
        beBytes 2 fo.user_info.location.h ++
        beBytes 2 fo.user_info.reserved ++
        beBytes 2 fo.finder_info.scroll_position.v ++
        beBytes 2 fo.finder_info.scroll_position.h ++
        beBytes 4 fo.finder_info.reserved ++
        beBytes 2 fo.finder_info.extended_finder_flags ++
        beBytes 2 fo.finder_info.reserved2 ++
        beBytes 4 fo.finder_info.put_away_folder_cnid) ∧
    (∀ fi : FileRecord,
      hfs_serialize_finderinfo (.file fi) =
        beBytes 4 fi.user_info.file_type ++
        beBytes 4 fi.user_info.file_creator ++
        beBytes 2 fi.user_info.finder_flags ++
        beBytes 2 fi.user_info.location.v ++
        beBytes 2 fi.user_info.location.h ++
        beBytes 2 fi.user_info.reserved ++
        beBytes 2 fi.finder_info.reserved_0 ++
        beBytes 2 fi.finder_info.reserved_1 ++
        beBytes 2 fi.finder_info.reserved_2 ++
        beBytes 2 fi.finder_info.reserved_3 ++
        beBytes 2 fi.finder_info.extended_finder_flags ++
        beBytes 2 fi.finder_info.reserved2 ++
        beBytes 4 fi.finder_info.put_away_folder_cnid) := by
  refine ⟨?_, ?_, ?_⟩
  · intro rec
    cases rec <;>
      simp [hfs_serialize_finderinfo, SWAPCOPY, swapcopy, leBytes_length]
  · intro fo
    simp only [hfs_serialize_finderinfo, swapcopy_leBytes_eq_beBytes]
  · intro fi
    simp only [hfs_serialize_finderinfo, swapcopy_leBytes_eq_beBytes]

/-! ## The record cache ring (hfsuser.c lines 50-123)

The C code builds a doubly linked ring: ringbuffer_init allocates a head
node and then RING_BUFFER_SIZE further nodes, all with a NULL path, so the
ring consists of RING_BUFFER_SIZE + 1 nodes.  The model represents the
ring as the list of its nodes in next-order together with the index of
head; a node is `none` while its path is NULL.  ringbuffer_add overwrites
head->prev and moves head back; ringbuffer_lookup scans forward from head
and stops at the first NULL path or after a full circle.  The reader-
writer lock only serializes access and is not modelled. -/

def RING_BUFFER_SIZE : Nat := 1024

/-- A catalog key is (parent cnid, node name); the name is a codepoint
list (hfs_unistr255_t modelled at codepoint level). -/
def CatKey : Type := Nat × List Nat

instance : DecidableEq CatKey := by
  unfold CatKey
  infer_instance

structure RBEntry where
  path : List Nat
  record : KeyedRecord
  key : CatKey
  deriving DecidableEq

structure RB where
  slots : List (Option RBEntry)
  head : Nat
  deriving DecidableEq

def ringbuffer_init : RB := ⟨List.replicate (RING_BUFFER_SIZE + 1) none, 0⟩

def ringbuffer_add (path : List Nat) (record : KeyedRecord) (key : CatKey)
    (rb : RB) : RB :=
  if rb.slots.length = 0 then rb
  else
    ⟨rb.slots.set (if rb.head = 0 then rb.slots.length - 1 else rb.head - 1)
        (some ⟨path, record, key⟩),
      if rb.head = 0 then rb.slots.length - 1 else rb.head - 1⟩

def scanFrom (rb : RB) : Nat → Nat → List RBEntry
  | 0, _ => []
  | fuel + 1, i =>
    match rb.slots.getD i none with
    | none => []
    | some e => e :: scanFrom rb fuel ((i + 1) % rb.slots.length)

/-- The entries the lookup scan visits, newest first. -/
def RB.entries (rb : RB) : List RBEntry := scanFrom rb rb.slots.length rb.head

def ringbuffer_lookup (path : List Nat) (rb : RB) :
    Option (KeyedRecord × CatKey) :=
  (rb.entries.find? (fun e => e.path == path)).map (fun e => (e.record, e.key))

/-! Abstraction of the ring as the rotation of its slot list that starts
at head, and well-formedness: the occupied slots form a prefix of that
rotation. -/

def rotList (rb : RB) : List (Option RBEntry) :=
  rb.slots.drop rb.head ++ rb.slots.take rb.head

def upToNone : List (Option RBEntry) → List RBEntry
  | [] => []
  | none :: _ => []
  | some e :: rest => e :: upToNone rest

def RB.Wf (rb : RB) : Prop :=
  0 < rb.slots.length ∧ rb.head < rb.slots.length ∧
  ∃ (xs : List RBEntry) (ys : List (Option RBEntry)),
    rotList rb = xs.map some ++ ys ∧ ∀ y ∈ ys, y = none

theorem rotList_length (rb : RB) : (rotList rb).length = rb.slots.length := by
  unfold rotList
  rw [List.length_append, List.length_drop, List.length_take]
  omega

theorem upToNone_some_append (xs : List RBEntry) (ys : List (Option RBEntry))
    (hys : ∀ y ∈ ys, y = none) : upToNone (xs.map some ++ ys) = xs := by
  induction xs with
  | nil =>
    cases ys with
    | nil => rfl
    | cons y t =>
      have : y = none := hys y (List.mem_cons_self y t)
      subst this
      rfl
  | cons x xs ih => simpa [upToNone] using ih

theorem list_set_drop (l : List (Option RBEntry)) (t : Nat) (x : Option RBEntry)
    (h : t < l.length) : (l.set t x).drop t = x :: l.drop (t + 1) := by
  induction l generalizing t with
  | nil => simp at h
  | cons a l ih =>
    cases t with
    | zero => rfl
    | succ t2 =>
      have h2 : t2 < l.length := by simpa using Nat.lt_of_succ_lt_succ h
      simpa [List.set] using ih t2 h2

theorem list_set_take (l : List (Option RBEntry)) (t : Nat) (x : Option RBEntry) :
    (l.set t x).take t = l.take t := by
  induction l generalizing t with
  | nil => simp
  | cons a l ih =>
    cases t with
    | zero => simp
    | succ t2 => simpa [List.set] using ih t2

theorem scanFrom_eq (rb : RB) (fuel : Nat) :
    ∀ i, 0 < rb.slots.length → i < rb.slots.length → fuel ≤ rb.slots.length →
    scanFrom rb fuel i =
      upToNone ((rb.slots.drop i ++ rb.slots.take i).take fuel) := by
  induction fuel with
  | zero => intro i hn hi hf; rfl
  | succ fuel ih =>
    intro i hn hi hf
    unfold scanFrom
    have hgetD : rb.slots.getD i none = rb.slots[i] := List.getD_eq_getElem _ _ hi
    have hdrop : rb.slots.drop i = rb.slots[i] :: rb.slots.drop (i + 1) :=
      List.drop_eq_getElem_cons hi
    rw [hgetD, hdrop, List.cons_append, List.take_succ_cons]
    cases hcell : rb.slots[i] with
    | none => rfl
    | some e =>
      show e :: scanFrom rb fuel ((i + 1) % rb.slots.length) =
        e :: upToNone ((rb.slots.drop (i + 1) ++ rb.slots.take i).take fuel)
      congr 1
      rw [ih ((i + 1) % rb.slots.length) hn (Nat.mod_lt _ hn) (by omega)]
      by_cases hi2 : i + 1 < rb.slots.length
      · have hj : (i + 1) % rb.slots.length = i + 1 := Nat.mod_eq_of_lt hi2
        rw [hj]
        have htk : rb.slots.take (i + 1) = rb.slots.take i ++ [rb.slots[i]] := by
          rw [List.take_succ, List.getElem?_eq_getElem hi]
          rfl
        rw [htk, ← List.append_assoc]
        have hle : fuel ≤ (rb.slots.drop (i + 1) ++ rb.slots.take i).length := by
          rw [List.length_append, List.length_drop, List.length_take]
          omega
        rw [List.take_append_of_le_length hle]
      · have hieq : i + 1 = rb.slots.length := by omega
        have hmod : (i + 1) % rb.slots.length = 0 := by
          rw [hieq, Nat.mod_self]
        rw [hmod, List.drop_zero, List.take_zero, List.append_nil]
        have hdnil : rb.slots.drop (i + 1) = [] :=
          List.drop_eq_nil_of_le (by omega)
        rw [hdnil, List.nil_append, List.take_take,
          Nat.min_eq_left (by omega : fuel ≤ i)]

theorem entries_eq_upToNone (rb : RB) (hn : 0 < rb.slots.length)
    (hh : rb.head < rb.slots.length) :
    rb.entries = upToNone (rotList rb) := by
  unfold RB.entries
  rw [scanFrom_eq rb rb.slots.length rb.head hn hh (Nat.le_refl _)]
  unfold rotList
  congr 1
  apply List.take_of_length_le
  rw [List.length_append, List.length_drop, List.length_take]
  omega

theorem dropLast_append_ne_nil (a b : List (Option RBEntry)) (hb : b ≠ []) :
    (a ++ b).dropLast = a ++ b.dropLast := by
  induction a with
  | nil => simp
  | cons x a ih =>
    cases a with
    | nil =>
      cases b with
      | nil => exact absurd rfl hb
      | cons y t => simp
    | cons x2 a2 =>
      rw [List.cons_append, List.dropLast_cons_of_ne_nil (by simp), ih]
      simp

theorem rotList_add (rb : RB) (entry : RBEntry)
    (hn : 0 < rb.slots.length) (hh : rb.head < rb.slots.length) :
    rotList (ringbuffer_add entry.path entry.record entry.key rb) =
      some entry :: (rotList rb).dropLast := by
  unfold ringbuffer_add
  rw [if_neg (by omega)]
  by_cases h0 : rb.head = 0
  · rw [if_pos h0]
    unfold rotList
    dsimp only
    rw [list_set_drop _ _ _ (by omega), list_set_take]
    have hd : rb.slots.drop (rb.slots.length - 1 + 1) = [] :=
      List.drop_eq_nil_of_le (by omega)
    rw [hd, h0, List.take_zero, List.append_nil, List.drop_zero,
      List.dropLast_eq_take, List.singleton_append]
  · rw [if_neg h0]
    unfold rotList
    dsimp only
    rw [list_set_drop _ _ _ (by omega), list_set_take]
    have hh1 : rb.head - 1 + 1 = rb.head := by omega
    rw [hh1]
    have htne : rb.slots.take rb.head ≠ [] := by
      intro hcon
      have hlc := congrArg List.length hcon
      rw [List.length_take] at hlc
      simp only [List.length_nil] at hlc
      omega
    rw [dropLast_append_ne_nil _ _ htne]
    have htd : (rb.slots.take rb.head).dropLast = rb.slots.take (rb.head - 1) := by
      rw [List.dropLast_eq_take, List.take_take, List.length_take]
      congr 1
      omega
    rw [htd]
    rfl

theorem ringbuffer_add_length (rb : RB) (p : List Nat) (r : KeyedRecord)
    (k : CatKey) : (ringbuffer_add p r k rb).slots.length = rb.slots.length := by
  unfold ringbuffer_add
  by_cases h : rb.slots.length = 0
  · rw [if_pos h]
  · rw [if_neg h]
    exact List.length_set _ _ _

theorem ringbuffer_add_head_lt (rb : RB) (p : List Nat) (r : KeyedRecord)
    (k : CatKey) (hn : 0 < rb.slots.length) (hh : rb.head < rb.slots.length) :
    (ringbuffer_add p r k rb).head < (ringbuffer_add p r k rb).slots.length := by
  unfold ringbuffer_add
  rw [if_neg (by omega)]
  dsimp only
  rw [List.length_set]
  by_cases h0 : rb.head = 0
  · rw [if_pos h0]; omega
  · rw [if_neg h0]; omega

/-- Inserting into a well-formed ring preserves well-formedness and the
scan list becomes the new entry followed by all previous entries except,
when the ring is full, the oldest (the last of the previous scan). -/
theorem ringbuffer_add_entries (rb : RB) (entry : RBEntry) (hwf : rb.Wf) :
    (ringbuffer_add entry.path entry.record entry.key rb).Wf ∧
    (ringbuffer_add entry.path entry.record entry.key rb).entries =
      entry :: rb.entries.take (rb.slots.length - 1) := by
  obtain ⟨hn, hh, xs, ys, hrot, hys⟩ := hwf
  have hlen : xs.length + ys.length = rb.slots.length := by
    have := rotList_length rb
    rw [hrot, List.length_append, List.length_map] at this
    omega
  have hradd := rotList_add rb entry hn hh
  have haddlen := ringbuffer_add_length rb entry.path entry.record entry.key
  have haddhead := ringbuffer_add_head_lt rb entry.path entry.record entry.key hn hh
  have hentries : rb.entries = xs := by
    rw [entries_eq_upToNone rb hn hh, hrot, upToNone_some_append xs ys hys]
  cases hyscase : ys with
  | nil =>
    subst hyscase
    have hxslen : xs.length = rb.slots.length := by simpa using hlen
    have hdl : (rotList rb).dropLast = xs.dropLast.map some := by
      rw [hrot, List.append_nil, ← List.map_dropLast]
    have hrot2 : rotList (ringbuffer_add entry.path entry.record entry.key rb) =
        (entry :: xs.dropLast).map some ++ [] := by
      rw [hradd, hdl, List.map_cons, List.append_nil]
    refine ⟨⟨by omega, haddhead, entry :: xs.dropLast, [], hrot2, by simp⟩, ?_⟩
    rw [entries_eq_upToNone _ (by omega) haddhead, hrot2,
      upToNone_some_append _ _ (by simp), hentries,
      List.dropLast_eq_take, hxslen]
  | cons y yt =>
    have hysne : ys ≠ [] := by rw [hyscase]; simp
    have hdl : (rotList rb).dropLast = xs.map some ++ ys.dropLast := by
      rw [hrot, dropLast_append_ne_nil _ _ hysne]
    have hydl : ∀ z ∈ ys.dropLast, z = none := by
      intro z hz
      exact hys z (List.dropLast_subset ys hz)
    have hrot2 : rotList (ringbuffer_add entry.path entry.record entry.key rb) =
        (entry :: xs).map some ++ ys.dropLast := by
      rw [hradd, hdl, List.map_cons]
      rfl
    refine ⟨⟨by omega, haddhead, entry :: xs, ys.dropLast, hrot2, hydl⟩, ?_⟩
    rw [entries_eq_upToNone _ (by omega) haddhead, hrot2,
      upToNone_some_append _ _ hydl, hentries]
    have hxsle : xs.length ≤ rb.slots.length - 1 := by
      rw [hyscase] at hlen
      simp only [List.length_cons] at hlen
      omega
    rw [List.take_of_length_le hxsle]

def rbAddEntry (rb : RB) (e : RBEntry) : RB :=
  ringbuffer_add e.path e.record e.key rb

/-- A sequence of ringbuffer_add calls, oldest first. -/
def addAll (es : List RBEntry) (rb : RB) : RB := es.foldl rbAddEntry rb

theorem take_append_take (a b : List RBEntry) (n : Nat) :
    (a ++ b.take n).take n = (a ++ b).take n := by
  rw [List.take_append_eq_append_take, List.take_append_eq_append_take,
    List.take_take, Nat.min_eq_left (by omega)]

theorem addAll_entries (es : List RBEntry) (rb : RB) (hwf : rb.Wf) :
    (addAll es rb).Wf ∧
    (addAll es rb).slots.length = rb.slots.length ∧
    (addAll es rb).entries = (es.reverse ++ rb.entries).take rb.slots.length := by
  induction es generalizing rb with
  | nil =>
    refine ⟨hwf, rfl, ?_⟩
    obtain ⟨hn, hh, xs, ys, hrot, hys⟩ := hwf
    have hentries : rb.entries = xs := by
      rw [entries_eq_upToNone rb hn hh, hrot, upToNone_some_append xs ys hys]
    have hlen : xs.length + ys.length = rb.slots.length := by
      have hrlen := rotList_length rb
      rw [hrot, List.length_append, List.length_map] at hrlen
      omega
    simp only [addAll, List.foldl_nil, List.reverse_nil, List.nil_append]
    rw [List.take_of_length_le]
    rw [hentries]
    omega
  | cons e es ih =>
    have hstep := ringbuffer_add_entries rb e hwf
    have hwfadd : (rbAddEntry rb e).Wf := hstep.1
    have hlen3 : (rbAddEntry rb e).slots.length = rb.slots.length :=
      ringbuffer_add_length rb e.path e.record e.key
    obtain ⟨hwf2, hlen2, hent2⟩ := ih (rbAddEntry rb e) hwfadd
    refine ⟨hwf2, ?_, ?_⟩
    · show (addAll es (rbAddEntry rb e)).slots.length = rb.slots.length
      rw [hlen2, hlen3]
    show (addAll es (rbAddEntry rb e)).entries =
      ((e :: es).reverse ++ rb.entries).take rb.slots.length
    rw [hent2, hlen3]
    have hstepent : (rbAddEntry rb e).entries =
        e :: rb.entries.take (rb.slots.length - 1) := hstep.2
    rw [hstepent, List.reverse_cons]
    have hn : 0 < rb.slots.length := hwf.1
    have hcons : e :: rb.entries.take (rb.slots.length - 1) =
        (e :: rb.entries).take rb.slots.length := by
      obtain ⟨m, hm⟩ : ∃ m, rb.slots.length = m + 1 :=
        ⟨rb.slots.length - 1, by omega⟩
      rw [hm, Nat.add_sub_cancel, List.take_succ_cons]
    rw [hcons, take_append_take, List.append_assoc, List.singleton_append]

theorem ringbuffer_init_wf : ringbuffer_init.Wf := by
  refine ⟨by simp [ringbuffer_init], by simp [ringbuffer_init], [],
    List.replicate (RING_BUFFER_SIZE + 1) none, ?_, ?_⟩
  · show rotList ringbuffer_init = [] ++ _
    rw [List.nil_append]
    unfold rotList ringbuffer_init
    simp
  · intro y hy
    exact List.eq_of_mem_replicate hy

theorem ringbuffer_init_entries : ringbuffer_init.entries = [] := by
  have h := entries_eq_upToNone ringbuffer_init (by simp [ringbuffer_init])
    (by simp [ringbuffer_init])
  rw [h]
  show upToNone (rotList ringbuffer_init) = []
  unfold rotList ringbuffer_init
  simp only [List.drop_zero, List.take_zero, List.append_nil]
  rfl

theorem find?_isSome_iff_mem (es : List RBEntry) (p : List Nat) :
    (es.find? (fun e => e.path == p)).isSome = true ↔ p ∈ es.map RBEntry.path := by
  induction es with
  | nil => simp
  | cons e es ih =>
    by_cases h : e.path = p
    · simp [List.find?, h]
    · rw [List.map_cons]
      have hbe : (e.path == p) = false := by
        simp [h]
      rw [List.find?]
      rw [hbe]
      simp only [List.mem_cons]
      rw [ih]
      constructor
      · intro hx; exact Or.inr hx
      · intro hx
        cases hx with
        | inl hx2 => exact absurd hx2.symm h
        | inr hx2 => exact hx2

/-- The central characterization of the record cache: after any sequence
of insertions into the freshly initialized ring, a path is served from the
cache exactly when it is among the paths of the last RING_BUFFER_SIZE + 1
insertions. -/
theorem ringbuffer_lookup_addAll (es : List RBEntry) (p : List Nat) :
    (ringbuffer_lookup p (addAll es ringbuffer_init)).isSome = true ↔
      p ∈ ((es.reverse.take (RING_BUFFER_SIZE + 1)).map RBEntry.path) := by
  obtain ⟨hwf, hlen, hent⟩ := addAll_entries es ringbuffer_init ringbuffer_init_wf
  unfold ringbuffer_lookup
  rw [hent, ringbuffer_init_entries, List.append_nil]
  have hsz : ringbuffer_init.slots.length = RING_BUFFER_SIZE + 1 := by
    simp [ringbuffer_init]
  rw [hsz, Option.isSome_map']
  exact find?_isSome_iff_mem _ p

def dummyFolder : FolderRecord :=
  ⟨0, ⟨⟨0, 0, 0, 0⟩, 0, ⟨0, 0⟩, 0⟩, ⟨⟨0, 0⟩, 0, 0, 0, 0⟩⟩

/-- RING_BUFFER_SIZE + 1 insertions with pairwise distinct paths. -/
def manyEntries : List RBEntry :=
  (List.range (RING_BUFFER_SIZE + 1)).map
    (fun i => ⟨[i], .folder dummyFolder, (0, [])⟩)

theorem manyEntries_length : manyEntries.length = RING_BUFFER_SIZE + 1 := by
  unfold manyEntries
  rw [List.length_map, List.length_range]

/-- C7 counterexample.  The claim says the ring holds at most 1024
entries.  ringbuffer_init allocates a head node plus RING_BUFFER_SIZE
nodes, i.e. 1025 nodes; after 1025 insertions with distinct paths every
one of the 1025 paths is still served by a cache lookup, and the scan list
holds 1025 > 1024 entries at once. -/
theorem claim_C7_counterexample_capacity :
    ((List.range (RING_BUFFER_SIZE + 1)).all
      (fun i => (ringbuffer_lookup [i] (addAll manyEntries ringbuffer_init)).isSome))
      = true ∧
    1024 < (addAll manyEntries ringbuffer_init).entries.length := by
  have hrevlen : manyEntries.reverse.length = RING_BUFFER_SIZE + 1 := by
    rw [List.length_reverse, manyEntries_length]
  have htake : manyEntries.reverse.take (RING_BUFFER_SIZE + 1) =
      manyEntries.reverse := List.take_of_length_le (by omega)
  constructor
  · rw [List.all_eq_true]
    intro i hi
    rw [List.mem_range] at hi
    apply (ringbuffer_lookup_addAll manyEntries [i]).mpr
    rw [htake]
    apply List.mem_map.mpr
    refine ⟨⟨[i], .folder dummyFolder, (0, [])⟩, ?_, rfl⟩
    rw [List.mem_reverse]
    unfold manyEntries
    exact List.mem_map.mpr ⟨i, List.mem_range.mpr hi, rfl⟩
  · obtain ⟨hwf, hlen, hent⟩ :=
      addAll_entries manyEntries ringbuffer_init ringbuffer_init_wf
    rw [hent, ringbuffer_init_entries, List.append_nil]
    have hsz : ringbuffer_init.slots.length = RING_BUFFER_SIZE + 1 := by
      simp [ringbuffer_init]
    rw [hsz, htake, hrevlen]
    decide

/-- C7 amended.  The ring built by ringbuffer_init has RING_BUFFER_SIZE+1
= 1025 nodes, not 1024: it holds at most 1025 entries, and after any
sequence of insertions starting from the fresh ring a path is found by
ringbuffer_lookup exactly when it is among the paths of the last 1025
insertions — so an insertion into the full ring overwrites exactly the
oldest entry and preserves all others. -/
theorem claim_C7_ring_amended (es : List RBEntry) (p : List Nat) :
    ((ringbuffer_lookup p (addAll es ringbuffer_init)).isSome = true ↔
      p ∈ ((es.reverse.take (RING_BUFFER_SIZE + 1)).map RBEntry.path)) ∧
    (addAll es ringbuffer_init).entries.length ≤ RING_BUFFER_SIZE + 1 := by
  refine ⟨ringbuffer_lookup_addAll es p, ?_⟩
  obtain ⟨hwf, hlen, hent⟩ := addAll_entries es ringbuffer_init ringbuffer_init_wf
  rw [hent]
  have hsz : ringbuffer_init.slots.length = RING_BUFFER_SIZE + 1 := by
    simp [ringbuffer_init]
  rw [hsz]
  have := List.length_take_le (RING_BUFFER_SIZE + 1)
    (es.reverse ++ ringbuffer_init.entries)
  omega

/-! ## Catalog model, hfs_lookup (hfsuser.c lines 261-294) and
hfs_get_path (lines 222-259)

libhfs, unicode.c and hfsuser.h are not among the provided sources.
Modelled from the spec:
- the constants below are the four-character codes of section 3
  (file hard links: creator "hfs+", type "hlnk"; directory hard links:
  creator "MACS", type "fdrp"), the fork selectors 0 / 0xFF of the
  extents-key description, and ROOT_FOLDER = 2;
- hfslib_find_catalog_record_with_cnid on the root folder is the
  Catalog.root field (none when the call fails, error -7);
- hfslib_make_catalog_key / hfslib_find_catalog_record_with_key is the
  Catalog.find field keyed by (parent cnid, name); name comparison is
  modelled as exact equality of codepoint sequences (the HX binary order;
  the case-insensitive H+ table is an external data table), and a failed
  lookup is modelled with libhfs result 1 (hfs_lookup returns -ret);
- hfslib_find_parent_thread is Catalog.parentThread, giving the parent
  cnid and the node's own name;
- hfslib_get_directory_hardlink / hfslib_get_hardlink are
  Catalog.dirHardlink / Catalog.fileHardlink (none when they fail);
- utf8_to_utf16 / utf16_to_utf8 are the identity at codepoint level.
Strings are codepoint lists; 47 is the slash and 58 the colon. -/

def HFS_DATAFORK : Nat := 0x00
def HFS_RSRCFORK : Nat := 0xFF
def HFS_CNID_ROOT_FOLDER : Nat := 2
def HFS_MACS_CREATOR : Nat := 0x4D414353
def HFS_DIR_HARD_LINK_FILE_TYPE : Nat := 0x66647270
def HFS_HFSPLUS_CREATOR : Nat := 0x6866732B
def HFS_HARD_LINK_FILE_TYPE : Nat := 0x686C6E6B

structure Catalog where
  root : Option (KeyedRecord × CatKey)
  find : Nat → List Nat → Option KeyedRecord
  parentThread : Nat → Option (Nat × List Nat)
  dirHardlink : Nat → Option KeyedRecord
  fileHardlink : Nat → Option KeyedRecord

def KeyedRecord.cnid : KeyedRecord → Nat
  | .file f => f.cnid
  | .folder f => f.cnid

def KeyedRecord.isFile : KeyedRecord → Bool
  | .file _ => true
  | .folder _ => false

def inodeNum : KeyedRecord → Nat
  | .file f => f.inode_num
  | .folder _ => 0

/-- record->file.user_info.file_creator == HFS_MACS_CREATOR &&
record->file.user_info.file_type == HFS_DIR_HARD_LINK_FILE_TYPE, for file
records (hfsuser.c lines 276-278). -/
def isDirLinkSentinel : KeyedRecord → Bool
  | .file f => f.user_info.file_creator == HFS_MACS_CREATOR &&
      f.user_info.file_type == HFS_DIR_HARD_LINK_FILE_TYPE
  | .folder _ => false

/-- record->file.user_info.file_creator == HFS_HFSPLUS_CREATOR &&
record->file.user_info.file_type == HFS_HARD_LINK_FILE_TYPE (lines
286-288). -/
def isFileLinkSentinel : KeyedRecord → Bool
  | .file f => f.user_info.file_creator == HFS_HFSPLUS_CREATOR &&
      f.user_info.file_type == HFS_HARD_LINK_FILE_TYPE
  | .folder _ => false

def fromUnixCp (c : Nat) : Nat := if c = 58 then 47 else c

def toUnixCp (c : Nat) : Nat := if c = 47 then 58 else c

/-- hfs_pathname_from_unix (lines 208-219): NFD normalization followed by
the colon-to-slash replacement (utf8_to_utf16 is the identity at
codepoint level).  none corresponds to the -ENOMEM return on NFD
failure. -/
def hfs_pathname_from_unix (u : UProc) (s : List Nat) : Option (List Nat) :=
  (hfs_utf8proc_NFD u s).map (List.map fromUnixCp)

/-- hfs_pathname_to_unix (lines 132-138) at codepoint level: slash to
colon. -/
def hfs_pathname_to_unix (s : List Nat) : List Nat := s.map toUnixCp

/-- strsep(&splitptr, "/"): the element before the first slash and the
remainder (none when no slash was found, i.e. splitptr becomes NULL). -/
def splitFirst : List Nat → List Nat × Option (List Nat)
  | [] => ([], none)
  | c :: rest =>
    if c = 47 then ([], some rest)
    else ((splitFirst rest).1.cons c, (splitFirst rest).2)

theorem splitFirst_some_length (s r : List Nat)
    (h : (splitFirst s).2 = some r) : r.length < s.length := by
  induction s with
  | nil => simp [splitFirst] at h
  | cons c rest ih =>
    unfold splitFirst at h
    by_cases hc : c = 47
    · rw [if_pos hc] at h
      simp only at h
      cases h
      simp
    · rw [if_neg hc] at h
      simp only at h
      have := ih h
      simp only [List.length_cons]
      omega

def spMeasure : Option (List Nat) → Nat
  | none => 0
  | some s => s.length + 1

/-- The strsep descent of hfs_lookup (lines 272-280): while the current
record is a folder and the next element is non-empty, normalize it, build
the key, look it up, and resolve directory hard links.  Returns the final
record, the last key, and the remaining splitptr. -/
def lookupLoop (u : UProc) (cat : Catalog) (rec : KeyedRecord) (key : CatKey)
    (sp : Option (List Nat)) :
    Except Int (KeyedRecord × CatKey × Option (List Nat)) :=
  match rec with
  | .file _ => .ok (rec, key, sp)
  | .folder fr =>
    match sp with
    | none => .ok (rec, key, none)
    | some s =>
      if (splitFirst s).1 = [] then .ok (rec, key, (splitFirst s).2)
      else
        match hfs_pathname_from_unix u (splitFirst s).1 with
        | none => .error 3
        | some uname =>
          match cat.find fr.cnid uname with
          | none => .error 1
          | some rec2 =>
            if isDirLinkSentinel rec2 then
              match cat.dirHardlink (inodeNum rec2) with
              | none => .error 7
              | some rec3 => lookupLoop u cat rec3 (fr.cnid, uname) (splitFirst s).2
            else lookupLoop u cat rec2 (fr.cnid, uname) (splitFirst s).2
termination_by spMeasure sp
decreasing_by
  all_goals
    simp only [spMeasure]
    cases hsp2 : (splitFirst s).2 with
    | none => simp [spMeasure]
    | some r =>
      simp only [spMeasure]
      have := splitFirst_some_length s r hsp2
      omega

/-- "rsrc" -/
def rsrcName : List Nat := [114, 115, 114, 99]

/-- The post-descent resource-fork handling (lines 281-284): when
splitptr is non-NULL the lookup fails with -5 unless the record is a file
and the whole remainder equals "rsrc", in which case the fork becomes the
resource fork. -/
def checkRsrc (rec : KeyedRecord) (sp : Option (List Nat)) : Except Int Nat :=
  match sp with
  | none => .ok HFS_DATAFORK
  | some rem =>
    if rec.isFile = false ∨ rem ≠ rsrcName then .error 5
    else .ok HFS_RSRCFORK

/-- The file hard-link resolution after the loop (lines 286-289). -/
def resolveFileHardlink (cat : Catalog) (rec : KeyedRecord) :
    Except Int KeyedRecord :=
  if isFileLinkSentinel rec then
    match cat.fileHardlink (inodeNum rec) with
    | none => .error 6
    | some r => .ok r
  else .ok rec

structure LookupOut where
  record : KeyedRecord
  key : CatKey
  fork : Nat
  cache : RB
  deriving DecidableEq

/-- hfs_lookup (lines 261-294).  The fork out-parameter starts as
HFS_DATAFORK; a cache hit returns immediately; otherwise the root record
is fetched (-7 on failure), the descent starts at splitpath+1 (the first
byte of the path is skipped), then the rsrc suffix is checked, the file
hard link resolved, and the result is cached only when splitptr is NULL
(no rsrc suffix was consumed). -/
def hfs_lookup (u : UProc) (cat : Catalog) (rb : RB) (path : List Nat) :
    Except Int LookupOut :=
  match ringbuffer_lookup path rb with
  | some (rec, key) => .ok ⟨rec, key, HFS_DATAFORK, rb⟩
  | none =>
    match cat.root with
    | none => .error 7
    | some (rec0, key0) =>
      match lookupLoop u cat rec0 key0 (some (path.drop 1)) with
      | .error e => .error e
      | .ok (rec1, key1, sp) =>
        match checkRsrc rec1 sp with
        | .error e => .error e
        | .ok fork =>
          match resolveFileHardlink cat rec1 with
          | .error e => .error e
          | .ok rec2 =>
            .ok ⟨rec2, key1, fork,
              if sp = none then ringbuffer_add path rec2 key1 rb else rb⟩

/-- The parent-thread walk of hfs_get_path: the list of names from the
root down to the given cnid.  The C loop has no termination guard; fuel
bounds the depth and none models both a failed parent-thread lookup (the
C code returns NULL) and a walk that does not reach the root within
fuel. -/
def collectNames (cat : Catalog) : Nat → Nat → Option (List (List Nat))
  | fuel, cnid =>
    if cnid = HFS_CNID_ROOT_FOLDER then some []
    else
      match fuel with
      | 0 => none
      | fuel + 1 =>
        match cat.parentThread cnid with
        | none => none
        | some (p, nm) => (collectNames cat fuel p).map (fun ns => ns ++ [nm])

/-- Path elements joined by slashes. -/
def joinSlash : List (List Nat) → List Nat
  | [] => []
  | [e] => e
  | e :: rest => e ++ 47 :: joinSlash rest

/-- hfs_get_path (lines 222-259): walk parent threads up to the root
folder collecting the element names, then print "/" followed by the
elements from the top down, separated by slashes (the final separator is
overwritten by the terminating NUL), each element converted by
hfs_pathname_to_unix. -/
def hfs_get_path (cat : Catalog) (fuel : Nat) (cnid : Nat) : Option (List Nat) :=
  (collectNames cat fuel cnid).map
    (fun ns => 47 :: joinSlash (ns.map hfs_pathname_to_unix))

/-- C10.  If the path is served from the record cache, hfs_lookup returns
immediately with the cached record and key, the cache unchanged, and the
fork out-parameter still holding HFS_DATAFORK, the value assigned before
the cache was consulted: a cached resolution can never report the
resource fork. -/
theorem claim_C10_cache_hit_datafork (u : UProc) (cat : Catalog) (rb : RB)
    (p : List Nat) (rec : KeyedRecord) (key : CatKey)
    (hhit : ringbuffer_lookup p rb = some (rec, key)) :
    hfs_lookup u cat rb p = .ok ⟨rec, key, HFS_DATAFORK, rb⟩ := by
  unfold hfs_lookup
  rw [hhit]

def uId : UProc := ⟨fun c => [c], fun _ => 0⟩

def catEmpty : Catalog :=
  ⟨none, fun _ _ => none, fun _ => none, fun _ => none, fun _ => none⟩

def rbOne : RB := ⟨[some ⟨[97], .folder dummyFolder, (1, [97])⟩], 0⟩

/-- Witness for C10 at a one-slot ring holding the path "a". -/
theorem claim_C10_cache_hit_datafork_witness :
    ringbuffer_lookup [97] rbOne = some (.folder dummyFolder, (1, [97])) ∧
    hfs_lookup uId catEmpty rbOne [97] =
      .ok ⟨.folder dummyFolder, (1, [97]), HFS_DATAFORK, rbOne⟩ :=
  ⟨by decide, claim_C10_cache_hit_datafork uId catEmpty rbOne [97]
      (.folder dummyFolder) (1, [97]) (by decide)⟩

/-- C3.  When the descent has stopped with a non-NULL remainder: if the
record is a file, the whole remainder equals "rsrc" and the record is not
a file-hard-link stub, hfs_lookup succeeds with the resource-fork flag
and does not insert into the cache; if the record is not a file or the
remainder differs from "rsrc" (more elements, a different element, or
"rsrc" behind a folder), hfs_lookup fails with -5 (NotFound). -/
theorem claim_C3_rsrc_suffix (u : UProc) (cat : Catalog) (rb : RB)
    (p : List Nat) (rec0 rec1 : KeyedRecord) (key0 key1 : CatKey)
    (rem : List Nat)
    (hmiss : ringbuffer_lookup p rb = none)
    (hroot : cat.root = some (rec0, key0))
    (hloop : lookupLoop u cat rec0 key0 (some (p.drop 1)) =
      .ok (rec1, key1, some rem)) :
    (rec1.isFile = true ∧ rem = rsrcName ∧ isFileLinkSentinel rec1 = false →
      hfs_lookup u cat rb p = .ok ⟨rec1, key1, HFS_RSRCFORK, rb⟩) ∧
    (rec1.isFile = false ∨ rem ≠ rsrcName →
      hfs_lookup u cat rb p = .error 5) := by
  constructor
  · rintro ⟨hfile, hrem, hsent⟩
    unfold hfs_lookup
    rw [hmiss, hroot]
    dsimp only
    rw [hloop]
    dsimp only
    have hcond : ¬(rec1.isFile = false ∨ rem ≠ rsrcName) := by
      push_neg
      exact ⟨by rw [hfile]; simp, hrem⟩
    have hck : checkRsrc rec1 (some rem) = .ok HFS_RSRCFORK := by
      unfold checkRsrc
      dsimp only
      rw [if_neg hcond]
    have hrf : resolveFileHardlink cat rec1 = .ok rec1 := by
      unfold resolveFileHardlink
      rw [hsent]
      simp
    rw [hck, hrf]
    simp
  · intro hbad
    unfold hfs_lookup
    rw [hmiss, hroot]
    dsimp only
    rw [hloop]
    dsimp only
    have hck : checkRsrc rec1 (some rem) = .error 5 := by
      unfold checkRsrc
      dsimp only
      rw [if_pos hbad]
    rw [hck]

/-! A small concrete catalog: root folder (cnid 2) containing a single
plain file "a" (cnid 16). -/

def fileA : FileRecord := ⟨16, ⟨0, 0, 0, ⟨0, 0⟩, 0⟩, ⟨0, 0, 0, 0, 0, 0, 0⟩, 0⟩

def rootFolder : FolderRecord :=
  ⟨2, ⟨⟨0, 0, 0, 0⟩, 0, ⟨0, 0⟩, 0⟩, ⟨⟨0, 0⟩, 0, 0, 0, 0⟩⟩

def catW : Catalog where
  root := some (.folder rootFolder, (1, []))
  find := fun parent name =>
    if parent = 2 ∧ name = [97] then some (.file fileA) else none
  parentThread := fun c => if c = 16 then some (2, [97]) else none
  dirHardlink := fun _ => none
  fileHardlink := fun _ => none

def rbEmpty1 : RB := ⟨[none], 0⟩

/-- "/a/rsrc" -/
def pathArsrc : List Nat := [47, 97, 47, 114, 115, 114, 99]

theorem lookupW_eval :
    lookupLoop uId catW (.folder rootFolder) (1, []) (some (pathArsrc.drop 1)) =
      .ok (.file fileA, (2, [97]), some rsrcName) := by
  simp [lookupLoop, pathArsrc, splitFirst, hfs_pathname_from_unix,
    hfs_utf8proc_NFD, nfdScanLen, buildBuf, sort_combining_characters,
    HFSINRANGE, uId, catW, fromUnixCp, isDirLinkSentinel, fileA, rootFolder,
    rsrcName, HFS_MACS_CREATOR, HFS_DIR_HARD_LINK_FILE_TYPE]

theorem rbEmpty1_miss (p : List Nat) : ringbuffer_lookup p rbEmpty1 = none := by
  simp [ringbuffer_lookup, RB.entries, rbEmpty1, scanFrom]

/-- Witness for C3 at the catalog with the file "a" and the path
"/a/rsrc". -/
theorem claim_C3_rsrc_suffix_witness :
    hfs_lookup uId catW rbEmpty1 pathArsrc =
      .ok ⟨.file fileA, (2, [97]), HFS_RSRCFORK, rbEmpty1⟩ :=
  (claim_C3_rsrc_suffix uId catW rbEmpty1 pathArsrc (.folder rootFolder)
    (.file fileA) (1, []) (2, [97]) rsrcName
    (rbEmpty1_miss pathArsrc) rfl lookupW_eval).1
    ⟨rfl, rfl, by simp [isFileLinkSentinel, fileA, HFS_HFSPLUS_CREATOR]⟩

/-- C4.  A resolution that set the resource-fork flag is never stored in
the record cache: hfs_lookup inserts into the ring only when splitptr is
NULL, i.e. when no "rsrc" suffix was consumed, so on such a lookup the
cache is returned unchanged; and both before and after the call a cache
lookup of that path misses (had it hit, the call would have returned the
cached record with HFS_DATAFORK instead). -/
theorem claim_C4_cache_no_rsrc (u : UProc) (cat : Catalog) (rb : RB)
    (p : List Nat) (out : LookupOut)
    (hok : hfs_lookup u cat rb p = .ok out)
    (hfork : out.fork = HFS_RSRCFORK) :
    out.cache = rb ∧ ringbuffer_lookup p rb = none ∧
    ringbuffer_lookup p out.cache = none := by
  unfold hfs_lookup at hok
  cases hhit : ringbuffer_lookup p rb with
  | some rk =>
    rw [hhit] at hok
    obtain ⟨rec, key⟩ := rk
    dsimp only at hok
    cases hok
    exact absurd hfork (by simp [HFS_RSRCFORK, HFS_DATAFORK])
  | none =>
    rw [hhit] at hok
    dsimp only at hok
    cases hroot : cat.root with
    | none => rw [hroot] at hok; exact absurd hok (by simp)
    | some rk0 =>
      rw [hroot] at hok
      obtain ⟨rec0, key0⟩ := rk0
      dsimp only at hok
      cases hloop : lookupLoop u cat rec0 key0 (some (p.drop 1)) with
      | error e => rw [hloop] at hok; exact absurd hok (by simp)
      | ok rks =>
        rw [hloop] at hok
        obtain ⟨rec1, key1, sp⟩ := rks
        dsimp only at hok
        cases sp with
        | none =>
          cases hck : checkRsrc rec1 none with
          | error e => rw [hck] at hok; exact absurd hok (by simp)
          | ok fork =>
            rw [hck] at hok
            have hfork0 : fork = HFS_DATAFORK := by
              unfold checkRsrc at hck
              dsimp only at hck
              cases hck
              rfl
            dsimp only at hok
            cases hrf : resolveFileHardlink cat rec1 with
            | error e => rw [hrf] at hok; exact absurd hok (by simp)
            | ok rec2 =>
              rw [hrf] at hok
              dsimp only at hok
              cases hok
              rw [hfork0] at hfork
              exact absurd hfork (by simp [HFS_RSRCFORK, HFS_DATAFORK])
        | some rem =>
          cases hck : checkRsrc rec1 (some rem) with
          | error e => rw [hck] at hok; exact absurd hok (by simp)
          | ok fork =>
            rw [hck] at hok
            dsimp only at hok
            cases hrf : resolveFileHardlink cat rec1 with
            | error e => rw [hrf] at hok; exact absurd hok (by simp)
            | ok rec2 =>
              rw [hrf] at hok
              dsimp only at hok
              cases hok
              have hcache : (if (some rem : Option (List Nat)) = none then
                  ringbuffer_add p rec2 key1 rb else rb) = rb := by
                rw [if_neg (by simp)]
              refine ⟨hcache, rfl, ?_⟩
              show ringbuffer_lookup p
                (if (some rem : Option (List Nat)) = none then
                  ringbuffer_add p rec2 key1 rb else rb) = none
              rw [hcache]
              exact hhit

/-- Witness for C4 at the catalog with the file "a" and the path
"/a/rsrc". -/
theorem claim_C4_cache_no_rsrc_witness :
    rbEmpty1 = rbEmpty1 ∧ ringbuffer_lookup pathArsrc rbEmpty1 = none := by
  have h := claim_C4_cache_no_rsrc uId catW rbEmpty1 pathArsrc
    ⟨.file fileA, (2, [97]), HFS_RSRCFORK, rbEmpty1⟩
    (by
      unfold hfs_lookup
      rw [rbEmpty1_miss pathArsrc]
      dsimp only
      rw [show catW.root = some (.folder rootFolder, (1, [])) from rfl]
      dsimp only
      rw [lookupW_eval]
      dsimp only
      simp [checkRsrc, rsrcName, KeyedRecord.isFile, resolveFileHardlink,
        isFileLinkSentinel, fileA, HFS_HFSPLUS_CREATOR])
    rfl
  exact ⟨rfl, h.2.1⟩

/-! ## C2: the lookup / get_path round trip -/

theorem splitFirst_no_slash (e : List Nat) (he : ¬47 ∈ e) :
    splitFirst e = (e, none) := by
  induction e with
  | nil => rfl
  | cons c rest ih =>
    unfold splitFirst
    rw [if_neg (by intro hc; exact he (by rw [hc]; exact List.mem_cons_self _ _))]
    rw [ih (fun hm => he (List.mem_cons_of_mem _ hm))]

theorem splitFirst_append (e r : List Nat) (he : ¬47 ∈ e) :
    splitFirst (e ++ 47 :: r) = (e, some r) := by
  induction e with
  | nil => simp [splitFirst]
  | cons c rest ih =>
    rw [List.cons_append]
    unfold splitFirst
    rw [if_neg (by intro hc; exact he (by rw [hc]; exact List.mem_cons_self _ _))]
    rw [ih (fun hm => he (List.mem_cons_of_mem _ hm))]

theorem lookupLoop_none (u : UProc) (cat : Catalog) (rec : KeyedRecord)
    (key : CatKey) : lookupLoop u cat rec key none = .ok (rec, key, none) := by
  cases rec with
  | file f => simp [lookupLoop]
  | folder f => simp [lookupLoop]

/-- The descent chain: from the record start, looking up the successive
(normalized) names in each folder leads to rfin, meeting no directory
hard-link stubs. -/
inductive Chain (cat : Catalog) : KeyedRecord → List (List Nat) → KeyedRecord → Prop
  | nil : ∀ r, Chain cat r [] r
  | cons : ∀ fr nm r2 names rfin,
      cat.find fr.cnid nm = some r2 →
      isDirLinkSentinel r2 = false →
      Chain cat r2 names rfin →
      Chain cat (.folder fr) (nm :: names) rfin

theorem lookupLoop_extract (u : UProc) (cat : Catalog)
    (Hsent : ∀ parent name r, cat.find parent name = some r →
      isDirLinkSentinel r = false) :
    ∀ (comps : List (List Nat)) (start : KeyedRecord) (key keyf : CatKey)
      (rfin : KeyedRecord),
      (∀ e ∈ comps, e ≠ [] ∧ ¬47 ∈ e) →
      lookupLoop u cat start key (some (joinSlash comps)) = .ok (rfin, keyf, none) →
      ∃ unames,
        List.Forall₂ (fun e n => hfs_pathname_from_unix u e = some n) comps unames ∧
        Chain cat start unames rfin ∧
        (KeyedRecord.isFile rfin = false ∨
          ∃ parent nm, cat.find parent nm = some rfin) := by
  intro comps
  induction comps with
  | nil =>
    intro start key keyf rfin hcomps hloop
    cases start with
    | file f =>
      unfold lookupLoop at hloop
      exact absurd hloop (by simp)
    | folder f =>
      unfold lookupLoop at hloop
      dsimp only at hloop
      rw [show joinSlash [] = [] from rfl] at hloop
      rw [show splitFirst [] = ([], none) from rfl] at hloop
      dsimp only at hloop
      rw [if_pos rfl] at hloop
      have h1 : KeyedRecord.folder f = rfin ∧ key = keyf := by
        have := hloop
        simp at this
        exact ⟨this.1, this.2⟩
      obtain ⟨hrec, hkey⟩ := h1
      refine ⟨[], List.Forall₂.nil, ?_, ?_⟩
      · rw [← hrec]; exact Chain.nil _
      · left; rw [← hrec]; rfl
  | cons e rest ih =>
    intro start key keyf rfin hcomps hloop
    have he := hcomps e (List.mem_cons_self _ _)
    cases start with
    | file f =>
      unfold lookupLoop at hloop
      exact absurd hloop (by simp)
    | folder f =>
      cases rest with
      | nil =>
        unfold lookupLoop at hloop
        dsimp only at hloop
        rw [show joinSlash [e] = e from rfl,
          splitFirst_no_slash e he.2] at hloop
        dsimp only at hloop
        rw [if_neg he.1] at hloop
        cases hpn : hfs_pathname_from_unix u e with
        | none => rw [hpn] at hloop; exact absurd hloop (by simp)
        | some uname =>
          rw [hpn] at hloop
          dsimp only at hloop
          cases hfind : cat.find f.cnid uname with
          | none => rw [hfind] at hloop; exact absurd hloop (by simp)
          | some rec2 =>
            rw [hfind] at hloop
            dsimp only at hloop
            have hsent2 := Hsent _ _ _ hfind
            rw [hsent2] at hloop
            simp only [Bool.false_eq_true, if_false] at hloop
            rw [lookupLoop_none] at hloop
            have h1 : rec2 = rfin := by
              simp at hloop
              exact hloop.1
            subst h1
            refine ⟨[uname], List.Forall₂.cons hpn List.Forall₂.nil,
              Chain.cons f uname rec2 [] rec2 hfind hsent2 (Chain.nil _),
              Or.inr ⟨f.cnid, uname, hfind⟩⟩
      | cons e2 t2 =>
        unfold lookupLoop at hloop
        dsimp only at hloop
        rw [show joinSlash (e :: e2 :: t2) = e ++ 47 :: joinSlash (e2 :: t2)
            from rfl,
          splitFirst_append e _ he.2] at hloop
        dsimp only at hloop
        rw [if_neg he.1] at hloop
        cases hpn : hfs_pathname_from_unix u e with
        | none => rw [hpn] at hloop; exact absurd hloop (by simp)
        | some uname =>
          rw [hpn] at hloop
          dsimp only at hloop
          cases hfind : cat.find f.cnid uname with
          | none => rw [hfind] at hloop; exact absurd hloop (by simp)
          | some rec2 =>
            rw [hfind] at hloop
            dsimp only at hloop
            have hsent2 := Hsent _ _ _ hfind
            rw [hsent2] at hloop
            simp only [Bool.false_eq_true, if_false] at hloop
            obtain ⟨unames, hf2, hchain, hlast⟩ :=
              ih rec2 (f.cnid, uname) keyf rfin
                (fun x hx => hcomps x (List.mem_cons_of_mem _ hx)) hloop
            exact ⟨uname :: unames, List.Forall₂.cons hpn hf2,
              Chain.cons f uname rec2 unames rfin hfind hsent2 hchain, hlast⟩

theorem collectNames_step (cat : Catalog) (k c : Nat)
    (hc : c ≠ HFS_CNID_ROOT_FOLDER) (p : Nat) (nm : List Nat)
    (hpt : cat.parentThread c = some (p, nm)) :
    collectNames cat (k + 1) c =
      (collectNames cat k p).map (fun ns => ns ++ [nm]) := by
  conv_lhs => unfold collectNames
  rw [if_neg hc]
  dsimp only
  rw [hpt]

theorem chain_collect (cat : Catalog)
    (Hwf1 : ∀ parent name r, cat.find parent name = some r →
      cat.parentThread (KeyedRecord.cnid r) = some (parent, name))
    (Hroot : ∀ parent name r, cat.find parent name = some r →
      KeyedRecord.cnid r ≠ HFS_CNID_ROOT_FOLDER) :
    ∀ (start : KeyedRecord) (names : List (List Nat)) (rfin : KeyedRecord),
      Chain cat start names rfin →
      ∀ k, collectNames cat (names.length + k) (KeyedRecord.cnid rfin) =
        (collectNames cat k (KeyedRecord.cnid start)).map (fun ns => ns ++ names) := by
  intro start names rfin hchain
  induction hchain with
  | nil r =>
    intro k
    simp only [List.length_nil, Nat.zero_add]
    cases hcoll : collectNames cat k (KeyedRecord.cnid r) <;> simp
  | cons fr nm r2 names2 rfin2 hfind hsent hchain2 ih =>
    intro k
    have hstep := collectNames_step cat k (KeyedRecord.cnid r2)
      (Hroot _ _ _ hfind) fr.cnid nm (Hwf1 _ _ _ hfind)
    have hlen : (nm :: names2).length + k = names2.length + (k + 1) := by
      simp only [List.length_cons]
      omega
    rw [hlen, ih (k + 1), hstep, Option.map_map]
    dsimp only [KeyedRecord.cnid]
    cases hcoll : collectNames cat k fr.cnid with
    | none => rfl
    | some ns0 =>
      show some ((ns0 ++ [nm]) ++ names2) = some (ns0 ++ nm :: names2)
      rw [List.append_assoc, List.singleton_append]

/-- C2 amended.  The claim as stated fails for resource-fork paths (see
the counterexample): a successful hfs_lookup of "/a/rsrc" returns the
record of "/a", whose hfs_get_path is "/a", not "/a/rsrc".  Amended to
lookups that consumed every component (data fork, no "rsrc" remainder),
on a catalog whose records thread back to their lookup key, never carry
the root cnid, and contain no hard-link stubs: then hfs_get_path on the
resolved record's cnid reconstructs exactly the looked-up path with each
component replaced by its HFS+ NFD normalization with ':' mapped to '/'
on the way in and '/' mapped back to ':' on the way out. -/
theorem claim_C2_roundtrip_amended (u : UProc) (cat : Catalog) (rb : RB)
    (comps : List (List Nat)) (out : LookupOut)
    (Hwf1 : ∀ parent name r, cat.find parent name = some r →
      cat.parentThread (KeyedRecord.cnid r) = some (parent, name))
    (Hroot : ∀ parent name r, cat.find parent name = some r →
      KeyedRecord.cnid r ≠ HFS_CNID_ROOT_FOLDER)
    (Hroot2 : ∀ rk, cat.root = some rk →
      KeyedRecord.cnid rk.1 = HFS_CNID_ROOT_FOLDER)
    (Hsent : ∀ parent name r, cat.find parent name = some r →
      isDirLinkSentinel r = false ∧ isFileLinkSentinel r = false)
    (Hcomps : ∀ e ∈ comps, e ≠ [] ∧ ¬47 ∈ e)
    (hmiss : ringbuffer_lookup (47 :: joinSlash comps) rb = none)
    (hok : hfs_lookup u cat rb (47 :: joinSlash comps) = .ok out)
    (hfork : out.fork = HFS_DATAFORK) :
    ∃ unames,
      List.Forall₂ (fun e n => hfs_pathname_from_unix u e = some n) comps unames ∧
      hfs_get_path cat comps.length (KeyedRecord.cnid out.record) =
        some (47 :: joinSlash (unames.map hfs_pathname_to_unix)) := by
  unfold hfs_lookup at hok
  rw [hmiss] at hok
  dsimp only at hok
  cases hroot : cat.root with
  | none => rw [hroot] at hok; exact absurd hok (by simp)
  | some rk0 =>
    rw [hroot] at hok
    obtain ⟨rec0, key0⟩ := rk0
    dsimp only at hok
    rw [show (47 :: joinSlash comps).drop 1 = joinSlash comps from rfl] at hok
    cases hloop : lookupLoop u cat rec0 key0 (some (joinSlash comps)) with
    | error e => rw [hloop] at hok; exact absurd hok (by simp)
    | ok rks =>
      rw [hloop] at hok
      obtain ⟨rec1, key1, sp⟩ := rks
      dsimp only at hok
      cases sp with
      | some rem =>
        cases hck : checkRsrc rec1 (some rem) with
        | error e => rw [hck] at hok; exact absurd hok (by simp)
        | ok fork =>
          have hfk : fork = HFS_RSRCFORK := by
            unfold checkRsrc at hck
            dsimp only at hck
            split at hck
            · exact absurd hck (by simp)
            · simp only [Except.ok.injEq] at hck
              exact hck.symm
          rw [hck] at hok
          dsimp only at hok
          cases hrf : resolveFileHardlink cat rec1 with
          | error e => rw [hrf] at hok; exact absurd hok (by simp)
          | ok rec2 =>
            rw [hrf] at hok
            dsimp only at hok
            cases hok
            rw [hfk] at hfork
            exact absurd hfork (by simp [HFS_RSRCFORK, HFS_DATAFORK])
      | none =>
        rw [show checkRsrc rec1 none = .ok HFS_DATAFORK from rfl] at hok
        dsimp only at hok
        obtain ⟨unames, hfa, hchain, hlast⟩ :=
          lookupLoop_extract u cat (fun p2 n2 r2 h2 => (Hsent p2 n2 r2 h2).1)
            comps rec0 key0 key1 rec1 Hcomps hloop
        have hsf : isFileLinkSentinel rec1 = false := by
          cases hlast with
          | inl hfile =>
            cases rec1 with
            | file f => simp [KeyedRecord.isFile] at hfile
            | folder f => rfl
          | inr hex =>
            obtain ⟨p2, n2, hf2⟩ := hex
            exact (Hsent _ _ _ hf2).2
        have hrf : resolveFileHardlink cat rec1 = .ok rec1 := by
          unfold resolveFileHardlink
          rw [hsf]
          simp
        rw [hrf] at hok
        dsimp only at hok
        cases hok
        refine ⟨unames, hfa, ?_⟩
        have hc0 : KeyedRecord.cnid rec0 = HFS_CNID_ROOT_FOLDER := Hroot2 _ hroot
        have hcol := chain_collect cat Hwf1 Hroot rec0 unames rec1 hchain 0
        rw [hc0] at hcol
        rw [show collectNames cat 0 HFS_CNID_ROOT_FOLDER = some [] from by
          unfold collectNames; rw [if_pos rfl]] at hcol
        have hlen : comps.length = unames.length := List.Forall₂.length_eq hfa
        unfold hfs_get_path
        dsimp only
        rw [hlen, show unames.length = unames.length + 0 from by omega, hcol]
        simp

theorem lookupArsrc_eval :
    hfs_lookup uId catW rbEmpty1 pathArsrc =
      .ok ⟨.file fileA, (2, [97]), HFS_RSRCFORK, rbEmpty1⟩ := by
  unfold hfs_lookup
  rw [rbEmpty1_miss pathArsrc]
  dsimp only
  rw [show catW.root = some (.folder rootFolder, (1, [])) from rfl]
  dsimp only
  rw [lookupW_eval]
  dsimp only
  simp [checkRsrc, rsrcName, KeyedRecord.isFile, resolveFileHardlink,
    isFileLinkSentinel, fileA, HFS_HFSPLUS_CREATOR]

/-- C2 counterexample.  On the catalog whose root folder (cnid 2)
contains the plain file "a" (cnid 16), the path "/a/rsrc" resolves
successfully (resource fork) to the record with cnid 16, but
hfs_get_path of cnid 16 is "/a", which is not "/a/rsrc" — and since every
component here is plain ASCII and the decomposition is trivial, HFS+ NFD
normalization and the slash/colon mapping change nothing, so the two
paths differ even up to normalization.  The claim quantifies over every
successfully resolved path and therefore fails. -/
theorem claim_C2_counterexample_rsrc_path :
    hfs_lookup uId catW rbEmpty1 pathArsrc =
      .ok ⟨.file fileA, (2, [97]), HFS_RSRCFORK, rbEmpty1⟩ ∧
    hfs_get_path catW 2 (KeyedRecord.cnid (.file fileA)) = some [47, 97] ∧
    ([47, 97] : List Nat) ≠ pathArsrc := by
  refine ⟨lookupArsrc_eval, ?_, by decide⟩
  decide

theorem lookupA_loop_eval :
    lookupLoop uId catW (.folder rootFolder) (1, []) (some [97]) =
      .ok (.file fileA, (2, [97]), none) := by
  simp [lookupLoop, splitFirst, hfs_pathname_from_unix,
    hfs_utf8proc_NFD, nfdScanLen, buildBuf, sort_combining_characters,
    HFSINRANGE, uId, catW, fromUnixCp, isDirLinkSentinel, fileA, rootFolder,
    HFS_MACS_CREATOR, HFS_DIR_HARD_LINK_FILE_TYPE]

theorem lookupA_eval :
    hfs_lookup uId catW rbEmpty1 [47, 97] =
      .ok ⟨.file fileA, (2, [97]), HFS_DATAFORK,
        ringbuffer_add [47, 97] (.file fileA) (2, [97]) rbEmpty1⟩ := by
  unfold hfs_lookup
  rw [rbEmpty1_miss [47, 97]]
  dsimp only
  rw [show catW.root = some (.folder rootFolder, (1, [])) from rfl]
  dsimp only
  rw [show ([47, 97] : List Nat).drop 1 = [97] from rfl, lookupA_loop_eval]
  dsimp only
  simp [checkRsrc, resolveFileHardlink, isFileLinkSentinel, fileA,
    HFS_HFSPLUS_CREATOR, HFS_HARD_LINK_FILE_TYPE]

/-- Witness for the amended C2 at the concrete catalog: looking up "/a"
resolves to the file record with cnid 16 and hfs_get_path of cnid 16
rebuilds "/a". -/
theorem claim_C2_roundtrip_amended_witness :
    ∃ unames,
      List.Forall₂ (fun e n => hfs_pathname_from_unix uId e = some n)
        [[97]] unames ∧
      hfs_get_path catW ([[97]] : List (List Nat)).length
          (KeyedRecord.cnid (LookupOut.record ⟨.file fileA, (2, [97]), HFS_DATAFORK,
            ringbuffer_add [47, 97] (.file fileA) (2, [97]) rbEmpty1⟩)) =
        some (47 :: joinSlash (unames.map hfs_pathname_to_unix)) := by
  apply claim_C2_roundtrip_amended uId catW rbEmpty1 [[97]]
  · intro parent name r h
    have h2 : (if parent = 2 ∧ name = [97] then some (KeyedRecord.file fileA)
        else none) = some r := h
    by_cases hc : parent = 2 ∧ name = [97]
    · rw [if_pos hc] at h2
      cases h2
      obtain ⟨h3, h4⟩ := hc
      subst h3
      subst h4
      rfl
    · rw [if_neg hc] at h2
      cases h2
  · intro parent name r h
    have h2 : (if parent = 2 ∧ name = [97] then some (KeyedRecord.file fileA)
        else none) = some r := h
    by_cases hc : parent = 2 ∧ name = [97]
    · rw [if_pos hc] at h2
      cases h2
      decide
    · rw [if_neg hc] at h2
      cases h2
  · intro rk h
    have h2 : some ((KeyedRecord.folder rootFolder : KeyedRecord),
        ((1, []) : CatKey)) = some rk := h
    cases h2
    rfl
  · intro parent name r h
    have h2 : (if parent = 2 ∧ name = [97] then some (KeyedRecord.file fileA)
        else none) = some r := h
    by_cases hc : parent = 2 ∧ name = [97]
    · rw [if_pos hc] at h2
      cases h2
      exact ⟨rfl, rfl⟩
    · rw [if_neg hc] at h2
      cases h2
  · intro e he
    simp only [List.mem_singleton] at he
    subst he
    exact ⟨by decide, by decide⟩
  · exact rbEmpty1_miss _
  · exact lookupA_eval
  · rfl
